import Mathlib

/-! Axis insertion (Unsqueeze) and stream compaction (Compress).

A shallow embedding of `onnxruntime/core/providers/cpu/tensor/unsqueeze.cc`
and of the compaction entry points declared in
`onnxruntime/core/providers/cuda/tensor/compress_impl.h`, followed by the
properties established about them.

Conventions of the embedding

* `int64_t` values are `Int`; the only arithmetic the code performs on them is
  `axis + rank` for a negative `axis` and a non-negative `rank`, which cannot
  leave the 64-bit range, so no wrap-around is involved.
* `std::vector<int64_t>` is `List Int`.
* A reference parameter that the function may assign (`TensorShape& output_shape`)
  is passed in and returned: the second component of the result is the value the
  caller's variable holds afterwards.
* A C++ function returns `Except Fault _`: `.ok v` is a normal return of `v`
  (which may itself be an error `Status`), `.error f` is a run that does not
  return normally (failed `assert`, failed `ORT_ENFORCE`, read past the end).
-/

namespace onnxruntime

/-! ## Data model -/

/-- Dimension sizes of a tensor, outermost first (`std::vector<int64_t>`). -/
abbrev TensorShape := List Int

/-- The status categories of `common::StatusCategory`. -/
inductive StatusCategory where
  | NONE
  | SYSTEM
  | ONNXRUNTIME
deriving DecidableEq, Repr

/-- The status codes of `common::StatusCode` that this code uses. -/
inductive StatusCode where
  | FAIL
  | INVALID_ARGUMENT
deriving DecidableEq, Repr

/-- A `common::Status`: either `Status::OK()` or an error with category, code and message. -/
inductive Status where
  | OK
  | error (category : StatusCategory) (code : StatusCode) (msg : String)
deriving DecidableEq, Repr

/-- Ways in which a run ends without returning to the caller. -/
inductive Fault where
  /-- A failed `ORT_ENFORCE` (an exception is thrown). -/
  | enforceFailed
  /-- A failed `assert`. -/
  | assertFailed
  /-- The iterator `begin` is dereferenced at or beyond `cend()`. -/
  | readPastEnd
deriving DecidableEq, Repr

deriving instance DecidableEq for Except

/-- A dense tensor: its shape and its elements in storage order. -/
structure Tensor where
  shape : TensorShape
  data : List Int
deriving DecidableEq, Repr

/-- The part of `OpKernelContext` (and of the kernel's configuration) that
`unsqueeze.cc` consults. The context itself is declared outside these sources;
each field is the result of one of the calls the code makes on it. -/
structure OpKernelContext where
  /-- The value of `SqueezeBase::ComputeAxes(ctx, axes_)`: the resolved axis list. -/
  axes : List Int
  /-- The value of `ctx->InputType(0)->IsSparseTensorType()` (false when sparse
  tensors are compiled out with `DISABLE_SPARSE_TENSORS`). -/
  inputIsSparse : Bool
  /-- The value of `ctx->Input<Tensor>(0)`; `none` is `nullptr`. -/
  input0 : Option Tensor
  /-- The storage `ctx->Output(0, shape)` hands out for `shape`, with the
  content it has at that moment; `none` is `nullptr`. -/
  outputStorage : TensorShape → Option (List Int)
  /-- The output tensor obtained so far; `none` before `ctx->Output` succeeds. -/
  output0 : Option Tensor

/-! ## Helpers declared outside these sources -/

/-- Modelled from the spec: `HandleNegativeAxis` of `core/providers/common.h`,
which is not among the sources. Spec 4.1 step 1: "Normalize every axis: if
negative, add the output rank"; the range test that follows is in
`PrepareCompute` itself. -/
def HandleNegativeAxis (axis : Int) (tensor_rank : Int) : Int :=
  if axis < 0 then axis + tensor_rank else axis

/-- Modelled from the spec: the status produced by the macro `ORT_RETURN_IF_NOT`
of `core/common/common.h`, which is not among the sources. Spec 4.1: "reject
otherwise with an invalid argument error"; spec 7 files the malformed sparse
axis count or value under the invalid-argument class. -/
def ORT_RETURN_IF_NOT_status (msg : String) : Status :=
  Status.error StatusCategory.ONNXRUNTIME StatusCode.INVALID_ARGUMENT msg

/-- Modelled from the spec: the status produced by the macro `ORT_RETURN_IF`
of `core/common/common.h`, which is not among the sources. Spec 7 files the
inability to obtain an output buffer under resource failures. -/
def ORT_RETURN_IF_status (msg : String) : Status :=
  Status.error StatusCategory.ONNXRUNTIME StatusCode.FAIL msg

/-- Modelled from the spec: `CopyCpuTensor` of `utils.h`, which is not among the
sources. Spec 4.1: "the output buffer content is a verbatim copy (or alias) of
the input buffer content - no element reordering, no value transformation". -/
def CopyCpuTensor (src : Tensor) (tgt : Tensor) : Tensor :=
  { tgt with data := src.data }

/-- The call `ctx->Output(0, shape)`: on success the context holds an output
tensor of that shape over the storage handed out. -/
def OpKernelContext.Output (ctx : OpKernelContext) (shape : TensorShape) :
    Option Tensor × OpKernelContext :=
  match ctx.outputStorage shape with
  | none => (none, ctx)
  | some buf => (some ⟨shape, buf⟩, { ctx with output0 := some ⟨shape, buf⟩ })

/-! ## `UnsqueezeBase::PrepareCompute` -/

namespace UnsqueezeBase

/-- Lines 44-49: the restriction applied when input 0 is a sparse tensor.
`none` means the check lets the call proceed. -/
def sparseCheck (inputIsSparse : Bool) (axes : List Int) : Option Status :=
  if inputIsSparse then
    if ¬ (axes.length ≤ 1) then
      some (ORT_RETURN_IF_NOT_status "Axes expected to have at most 1 element for sparse Unsqueeze")
    else
      match axes with
      | [] => none
      | a0 :: _ =>
        if ¬ (a0 = 0 ∨ a0 = 1) then
          some (ORT_RETURN_IF_NOT_status "Axes entry may be either 0 or 1 for sparse tensors")
        else none
  else none

/-- Line 60: `Status(ONNXRUNTIME, INVALID_ARGUMENT, "'axes' has an out of range axis")`. -/
def outOfRangeAxis : Status :=
  Status.error StatusCategory.ONNXRUNTIME StatusCode.INVALID_ARGUMENT
    "'axes' has an out of range axis"

/-- Line 62: `Status(ONNXRUNTIME, INVALID_ARGUMENT, "'axes' has a duplicate axis")`. -/
def duplicateAxis : Status :=
  Status.error StatusCategory.ONNXRUNTIME StatusCode.INVALID_ARGUMENT
    "'axes' has a duplicate axis"

/-- Lines 56-64: the loop `for (int64_t axis : axes)` over the remaining axes,
started with the current `output_dims`. An error status ends the function. -/
def axesLoop : List Int → List Int → Except Status (List Int)
  | [], output_dims => .ok output_dims
  | axis :: rest, output_dims =>
    let axis := HandleNegativeAxis axis output_dims.length
    if axis < 0 ∨ axis ≥ (output_dims.length : Int) then
      .error outOfRangeAxis
    else if output_dims.getD axis.toNat 0 ≠ 0 then
      .error duplicateAxis
    else
      axesLoop rest (output_dims.set axis.toNat 1)

/-- Lines 69-72: the loop `for (auto& axisSize : output_dims)` over the
remaining slots, with the iterator `begin` given as the input dimensions not
yet consumed. Returns the slots after the loop and the final `begin`; `none`
when `*begin++` is evaluated with `begin` at the end. -/
def fillLoop : List Int → List Int → Option (List Int × List Int)
  | [], begin => some ([], begin)
  | axisSize :: rest, begin =>
    if axisSize = 0 then
      match begin with
      | [] => none
      | d :: begin1 =>
        match fillLoop rest begin1 with
        | none => none
        | some (filled, fin) => some (d :: filled, fin)
    else
      match fillLoop rest begin with
      | none => none
      | some (filled, fin) => some (axisSize :: filled, fin)

/-- `Status UnsqueezeBase::PrepareCompute(OpKernelContext*, const TensorShape& input_shape,
TensorShape& output_shape) const`. The second component of a normal return is
the value of the caller's `output_shape` afterwards. -/
def PrepareCompute (ctx : OpKernelContext) (input_shape : TensorShape)
    (output_shape : TensorShape) : Except Fault (Status × TensorShape) :=
  let axes := ctx.axes
  match sparseCheck ctx.inputIsSparse axes with
  | some st => .ok (st, output_shape)
  | none =>
    let output_dims := List.replicate (axes.length + input_shape.length) (0 : Int)
    match axesLoop axes output_dims with
    | .error st => .ok (st, output_shape)
    | .ok output_dims =>
      match fillLoop output_dims input_shape with
      | none => .error Fault.readPastEnd
      | some (output_dims, fin) =>
        if fin = [] then .ok (Status.OK, output_dims)
        else .error Fault.assertFailed

end UnsqueezeBase

/-! ## `Unsqueeze::Compute` -/

namespace Unsqueeze

/-- `Status Unsqueeze::Compute(OpKernelContext* ctx) const`. Returns the status
and the context as the call leaves it. -/
def Compute (ctx : OpKernelContext) : Except Fault (Status × OpKernelContext) :=
  match ctx.input0 with
  | none => .error Fault.enforceFailed
  | some input_tensor =>
    match UnsqueezeBase.PrepareCompute ctx input_tensor.shape [] with
    | .error f => .error f
    | .ok (st, output_shape) =>
      if st ≠ Status.OK then .ok (st, ctx)
      else
        match ctx.Output output_shape with
        | (none, ctx1) => .ok (ORT_RETURN_IF_status "Failed to get output tensor", ctx1)
        | (some output_tensor, ctx1) =>
          .ok (Status.OK, { ctx1 with output0 := some (CopyCpuTensor input_tensor output_tensor) })

end Unsqueeze

end onnxruntime

/-! ## The compaction entry points of `compress_impl.h` -/

namespace onnxruntime

namespace cuda

/-- Modelled from the spec: the running total behind `CompressInclusiveSum`,
continued from `acc`. Spec 3: entry `i` of CumulativeCount "equals the number of
true flags in positions [0, i] inclusive". -/
def inclusiveSumFrom (acc : Nat) : List Bool → List Nat
  | [] => []
  | flag :: rest =>
    (acc + (if flag then 1 else 0)) :: inclusiveSumFrom (acc + (if flag then 1 else 0)) rest

/-- Modelled from the spec: `CompressInclusiveSum(stream, input, N, condition_cumulative_sum)`,
declared in `compress_impl.h`, whose body is not among the sources. Spec 4.2
phase 1: "compute the inclusive prefix sum of the condition array (each true
contributes 1, false contributes 0)". The result is the content written to
`condition_cumulative_sum`; `input` holds the condition flags (passed as
`int8_t` values 0 and 1), of which the first `N` are summed. -/
def CompressInclusiveSum (input : List Bool) (N : Nat) : List Nat :=
  inclusiveSumFrom 0 (input.take N)

/-- Modelled from the spec: the work items of the scatter phase. Spec 4.2 phase
2: one unit of work per (outer repetition, axis index) pair; "indices where the
condition is false contribute no output and are simply skipped". -/
def scatterWorkItems (outer input_axis_dim_length valid_condition_length : Nat)
    (condition_data : List Bool) : List (Nat × Nat) :=
  (List.range outer).flatMap fun o =>
    ((List.range input_axis_dim_length).filter
      (fun i => decide (i < valid_condition_length) && condition_data.getD i false)).map
      (fun i => (o, i))

/-- Modelled from the spec: one work item of the scatter phase. Spec 4.2 phase
2: "copy the SliceBlock at input position i to output position
CumulativeCount[i] - 1 along the compacted axis, at the correspondingly repeated
outer offset"; the block is a run of `blockBytes` bytes. -/
def copySliceBlock (blockBytes input_axis_dim_length output_axis_dim_length : Nat)
    (condition_cumulative_sum : List Nat) (input_data : List Nat)
    (output_data : List Nat) (item : Nat × Nat) : List Nat :=
  (List.range blockBytes).foldl
    (fun out j =>
      out.set
        ((item.1 * output_axis_dim_length + (condition_cumulative_sum.getD item.2 0 - 1))
          * blockBytes + j)
        (input_data.getD ((item.1 * input_axis_dim_length + item.2) * blockBytes + j) 0))
    output_data

/-- Modelled from the spec: `CompressImpl`, declared in `compress_impl.h`, whose
body is not among the sources. Spec 4.2 phase 2 and "numeric/layout semantics":
the copy runs over byte runs of `element_bytes * axis_right_stride` bytes, for
every outer repetition and every kept axis index; `N` is the number of input
elements, so the outer dimensions repeat
`N / (input_axis_dim_length * axis_right_stride)` times. Buffers are lists of
bytes; the second component is `output_data` after the call. Spec 4.2 "failure
modes": the component has no failure path of its own, so the status is OK. -/
def CompressImpl (element_bytes : Nat) (valid_condition_length : Nat)
    (axis_right_stride : Nat) (input_axis_dim_length : Nat) (output_axis_dim_length : Nat)
    (condition_cumulative_sum : List Nat) (condition_data : List Bool)
    (input_data : List Nat) (output_data : List Nat) (N : Nat) : Status × List Nat :=
  (Status.OK,
    (scatterWorkItems (N / (input_axis_dim_length * axis_right_stride))
        input_axis_dim_length valid_condition_length condition_data).foldl
      (copySliceBlock (element_bytes * axis_right_stride) input_axis_dim_length
        output_axis_dim_length condition_cumulative_sum input_data)
      output_data)

/-- Modelled from the spec: the output shape of the Compaction Engine, whose
caller-side code is not among the sources. Spec 3 and 4.2: the last entry of
CumulativeCount "fixes the output axis length", "all other axes unchanged". -/
def compressOutputShape (input_shape : List Nat) (axis : Nat)
    (condition_cumulative_sum : List Nat) : List Nat :=
  input_shape.set axis (condition_cumulative_sum.getLastD 0)

/-- The SliceBlock of `data` at outer repetition `o` and axis position `p`,
for an axis of length `axisLength` and blocks of `blockBytes` bytes. -/
def sliceBlock (data : List Nat) (blockBytes axisLength o p : Nat) : List Nat :=
  (data.drop ((o * axisLength + p) * blockBytes)).take blockBytes

end cuda

end onnxruntime

namespace onnxruntime

/-! ## Vocabulary of the statements -/

/-- The slots of `dims` whose index, counted from `i`, is not in `positions`:
what remains of a shape after the axes at `positions` are removed. -/
def removeAxesFrom (positions : List Int) : Nat → List Int → List Int
  | _, [] => []
  | i, d :: ds =>
    if (i : Int) ∈ positions then removeAxesFrom positions (i + 1) ds
    else d :: removeAxesFrom positions (i + 1) ds

/-- Removal of the axes at `positions` from a shape. -/
def removeAxes (positions : List Int) (dims : List Int) : List Int :=
  removeAxesFrom positions 0 dims

/-- The axis list normalized against `rank`. -/
def normalizedAxes (axes : List Int) (rank : Nat) : List Int :=
  axes.map (fun a => HandleNegativeAxis a rank)

end onnxruntime

/-! ## Auxiliary definitions -/

namespace onnxruntime

/-- The slots `i, ..., i+m-1` of a dims array in which exactly the positions
listed in `S` hold 1 and all others hold 0: the state of `output_dims` once the
axes of `S` have been marked. -/
def marks (S : List Int) : Nat → Nat → List Int
  | _, 0 => []
  | i, m + 1 => (if (i : Int) ∈ S then 1 else 0) :: marks S (i + 1) m

/-- The number of positions among `i, ..., i+m-1` that are not listed in `S`. -/
def unmarked (S : List Int) : Nat → Nat → Nat
  | _, 0 => 0
  | i, m + 1 => (if (i : Int) ∈ S then 0 else 1) + unmarked S (i + 1) m

namespace cuda

/-- The number of `true` flags among the first `i` of `l`. -/
def countBefore (l : List Bool) (i : Nat) : Nat := (l.take i).count true

end cuda

/-! ## Concrete contexts -/

/-- A context for a call of `PrepareCompute` alone: the given axis list and
sparsity, no input tensor fetched and no output storage. -/
def shapeOnlyContext (axes : List Int) (inputIsSparse : Bool) : OpKernelContext :=
  { axes := axes, inputIsSparse := inputIsSparse, input0 := none,
    outputStorage := fun _ => none, output0 := none }

/-- A context for `Unsqueeze::Compute` on a dense input tensor. -/
def denseContext (axes : List Int) (input : Tensor)
    (outputStorage : TensorShape → Option (List Int)) : OpKernelContext :=
  { axes := axes, inputIsSparse := false, input0 := some input,
    outputStorage := outputStorage, output0 := none }

end onnxruntime

/-! ## The mask-based variant of `PrepareCompute`

The reimplementation proposed in the design notes (spec 9): "an explicit boolean
is-set mask alongside the dimension array rather than overloading the value 0 as
a sentinel". It differs from `PrepareCompute` only in where it looks to decide
whether a slot is set. -/

namespace onnxruntime

namespace UnsqueezeBase

/-- The axis loop of the mask-based variant: a slot counts as set when its
entry in `is_set` is true; marking a slot sets both its dimension and its flag. -/
def axesLoopMask : List Int → List Int → List Bool → Except Status (List Int × List Bool)
  | [], output_dims, is_set => .ok (output_dims, is_set)
  | axis :: rest, output_dims, is_set =>
    let axis := HandleNegativeAxis axis output_dims.length
    if axis < 0 ∨ axis ≥ (output_dims.length : Int) then
      .error outOfRangeAxis
    else if is_set.getD axis.toNat false = true then
      .error duplicateAxis
    else
      axesLoopMask rest (output_dims.set axis.toNat 1) (is_set.set axis.toNat true)

/-- The fill loop of the mask-based variant: a slot is filled from the input
dimensions when its flag is false, whatever value it holds. -/
def fillLoopMask : List Int → List Bool → List Int → Option (List Int × List Int)
  | [], _, begin => some ([], begin)
  | axisSize :: rest, is_set, begin =>
    if is_set.headD false = true then
      match fillLoopMask rest is_set.tail begin with
      | none => none
      | some (filled, fin) => some (axisSize :: filled, fin)
    else
      match begin with
      | [] => none
      | d :: begin1 =>
        match fillLoopMask rest is_set.tail begin1 with
        | none => none
        | some (filled, fin) => some (d :: filled, fin)

/-- The mask-based variant of `PrepareCompute`: the same steps, with the mask
initially all false. -/
def PrepareComputeMask (ctx : OpKernelContext) (input_shape : TensorShape)
    (output_shape : TensorShape) : Except Fault (Status × TensorShape) :=
  let axes := ctx.axes
  match sparseCheck ctx.inputIsSparse axes with
  | some st => .ok (st, output_shape)
  | none =>
    let output_dims := List.replicate (axes.length + input_shape.length) (0 : Int)
    let is_set := List.replicate (axes.length + input_shape.length) false
    match axesLoopMask axes output_dims is_set with
    | .error st => .ok (st, output_shape)
    | .ok (output_dims, is_set) =>
      match fillLoopMask output_dims is_set input_shape with
      | none => .error Fault.readPastEnd
      | some (output_dims, fin) =>
        if fin = [] then .ok (Status.OK, output_dims)
        else .error Fault.assertFailed

/-- Axis insertion one axis at a time: `PrepareCompute` with the one-element
axis list `[a]` for each `a` of the given list in turn, each call applied to the
shape returned by the previous one; `none` as soon as a call does not succeed. -/
def insertSequentially (ctx : OpKernelContext) : List Int → TensorShape → Option TensorShape
  | [], shape => some shape
  | a :: rest, shape =>
    match PrepareCompute { ctx with axes := [a] } shape [] with
    | .ok (Status.OK, out) => insertSequentially ctx rest out
    | _ => none

end UnsqueezeBase

end onnxruntime

/-! ## Auxiliary facts about the two loops -/

namespace onnxruntime

open UnsqueezeBase

@[simp] theorem marks_length (S : List Int) (m i : Nat) : (marks S i m).length = m := by
  induction m generalizing i with
  | zero => rfl
  | succ m ih => simp [marks, ih]

theorem marks_nil (m i : Nat) : marks [] i m = List.replicate m 0 := by
  induction m generalizing i with
  | zero => rfl
  | succ m ih => simp [marks, ih, List.replicate_succ]

theorem marks_congr (S T : List Int) (m i : Nat)
    (h : ∀ x : Nat, i ≤ x → x < i + m → ((x : Int) ∈ S ↔ (x : Int) ∈ T)) :
    marks S i m = marks T i m := by
  induction m generalizing i with
  | zero => rfl
  | succ m ih =>
    have h0 : ((i : Int) ∈ S ↔ (i : Int) ∈ T) := h i (le_refl _) (by omega)
    have ht : marks S (i + 1) m = marks T (i + 1) m :=
      ih (i + 1) (fun x hx1 hx2 => h x (by omega) (by omega))
    simp only [marks, ht]
    by_cases hS : (i : Int) ∈ S
    · simp [hS, h0.mp hS]
    · have hT : ¬ (i : Int) ∈ T := fun c => hS (h0.mpr c)
      simp [hS, hT]

theorem unmarked_congr (S T : List Int) (m i : Nat)
    (h : ∀ x : Nat, i ≤ x → x < i + m → ((x : Int) ∈ S ↔ (x : Int) ∈ T)) :
    unmarked S i m = unmarked T i m := by
  induction m generalizing i with
  | zero => rfl
  | succ m ih =>
    have h0 : ((i : Int) ∈ S ↔ (i : Int) ∈ T) := h i (le_refl _) (by omega)
    have ht : unmarked S (i + 1) m = unmarked T (i + 1) m :=
      ih (i + 1) (fun x hx1 hx2 => h x (by omega) (by omega))
    simp only [unmarked, ht]
    by_cases hS : (i : Int) ∈ S
    · simp [hS, h0.mp hS]
    · have hT : ¬ (i : Int) ∈ T := fun c => hS (h0.mpr c)
      simp [hS, hT]

theorem marks_getD (S : List Int) (m i j : Nat) (hj : j < m) :
    (marks S i m).getD j 0 = if ((i + j : Nat) : Int) ∈ S then 1 else 0 := by
  induction m generalizing i j with
  | zero => omega
  | succ m ih =>
    cases j with
    | zero => simp [marks]
    | succ j =>
      have := ih (i + 1) j (by omega)
      simp only [marks, List.getD_cons_succ, this]
      have e : i + 1 + j = i + (j + 1) := by omega
      rw [e]

theorem marks_set (S : List Int) (m i j : Nat) :
    (marks S i m).set j 1 = marks (((i + j : Nat) : Int) :: S) i m := by
  induction m generalizing i j with
  | zero => simp [marks]
  | succ m ih =>
    cases j with
    | zero =>
      have ht : marks ((i : Int) :: S) (i + 1) m = marks S (i + 1) m := by
        apply marks_congr
        intro x hx1 _
        have hne : (x : Int) ≠ (i : Int) := by
          intro c
          have : x = i := by exact_mod_cast c
          omega
        simp only [List.mem_cons, hne, false_or]
      simp [marks, ht]
    | succ j =>
      have e : i + (j + 1) = i + 1 + j := by omega
      have hne : (i : Int) ≠ ((i + 1 + j : Nat) : Int) := by
        intro c
        have : i = i + 1 + j := by exact_mod_cast c
        omega
      simp only [marks, List.set_cons_succ, e, ih (i + 1) j, List.mem_cons, hne, false_or]

theorem unmarked_cons (S : List Int) (m i s : Nat) (hs1 : i ≤ s) (hs2 : s < i + m)
    (hS : ¬ (s : Int) ∈ S) :
    unmarked ((s : Int) :: S) i m + 1 = unmarked S i m := by
  induction m generalizing i with
  | zero => omega
  | succ m ih =>
    by_cases hi : s = i
    · subst hi
      have ht : unmarked ((s : Int) :: S) (s + 1) m = unmarked S (s + 1) m := by
        apply unmarked_congr
        intro x hx1 _
        have hne : (x : Int) ≠ (s : Int) := by
          intro c
          have : x = s := by exact_mod_cast c
          omega
        simp only [List.mem_cons, hne, false_or]
      simp [unmarked, ht, hS]
      omega
    · have hne : (i : Int) ≠ (s : Int) := by
        intro c
        have : i = s := by exact_mod_cast c
        omega
      have := ih (i + 1) (by omega) (by omega)
      simp only [unmarked, List.mem_cons, hne, false_or]
      omega

theorem unmarked_nil (m i : Nat) : unmarked [] i m = m := by
  induction m generalizing i with
  | zero => rfl
  | succ m ih => simp [unmarked, ih]; omega

/-- With `S` duplicate-free and inside `[0, n)`, the unmarked slots of an
`n`-slot array number `n - |S|`. -/
theorem unmarked_count (n : Nat) (S : List Int) (hnd : S.Nodup)
    (hr : ∀ s ∈ S, 0 ≤ s ∧ s < n) : unmarked S 0 n + S.length = n := by
  induction S with
  | nil => simp [unmarked_nil]
  | cons s S ih =>
    have hs := hr s (List.mem_cons_self _ _)
    have hnd2 := List.nodup_cons.mp hnd
    have ih2 := ih hnd2.2 (fun t ht => hr t (List.mem_cons_of_mem _ ht))
    obtain ⟨k, hk⟩ := Int.eq_ofNat_of_zero_le hs.1
    subst hk
    have := unmarked_cons S n 0 k (by omega) (by omega) hnd2.1
    simp only [List.length_cons]
    omega

/-! ### The axis-marking loop on a marked array -/

theorem axesLoop_cons_outOfRange (S : List Int) (n : Nat) (a : Int) (rest : List Int)
    (h : ¬ (0 ≤ HandleNegativeAxis a n ∧ HandleNegativeAxis a n < n)) :
    axesLoop (a :: rest) (marks S 0 n) = .error outOfRangeAxis := by
  have h2 : HandleNegativeAxis a n < 0 ∨ HandleNegativeAxis a n ≥ (n : Int) := by
    by_contra c
    apply h
    constructor <;> omega
  simp only [axesLoop, marks_length]
  rw [if_pos h2]

theorem axesLoop_cons_duplicate (S : List Int) (n : Nat) (a : Int) (rest : List Int)
    (h : 0 ≤ HandleNegativeAxis a n ∧ HandleNegativeAxis a n < n)
    (hm : HandleNegativeAxis a n ∈ S) :
    axesLoop (a :: rest) (marks S 0 n) = .error duplicateAxis := by
  have h2 : ¬ (HandleNegativeAxis a n < 0 ∨ HandleNegativeAxis a n ≥ (n : Int)) := by omega
  obtain ⟨k, hk⟩ := Int.eq_ofNat_of_zero_le h.1
  have hkn : k < n := by omega
  have hg : (marks S 0 n).getD k 0 = 1 := by
    rw [marks_getD S n 0 k hkn]
    have : ((0 + k : Nat) : Int) ∈ S := by
      rw [Nat.zero_add, ← hk]; exact hm
    rw [if_pos this]
  simp only [axesLoop, marks_length]
  rw [if_neg h2, hk, Int.toNat_ofNat, hg]
  simp

theorem axesLoop_cons_fresh (S : List Int) (n : Nat) (a : Int) (rest : List Int)
    (h : 0 ≤ HandleNegativeAxis a n ∧ HandleNegativeAxis a n < n)
    (hm : ¬ HandleNegativeAxis a n ∈ S) :
    axesLoop (a :: rest) (marks S 0 n)
      = axesLoop rest (marks (HandleNegativeAxis a n :: S) 0 n) := by
  have h2 : ¬ (HandleNegativeAxis a n < 0 ∨ HandleNegativeAxis a n ≥ (n : Int)) := by omega
  obtain ⟨k, hk⟩ := Int.eq_ofNat_of_zero_le h.1
  have hkn : k < n := by omega
  have hg : (marks S 0 n).getD k 0 = 0 := by
    rw [marks_getD S n 0 k hkn]
    have : ¬ ((0 + k : Nat) : Int) ∈ S := by
      rw [Nat.zero_add, ← hk]; exact hm
    rw [if_neg this]
  have hs : (marks S 0 n).set k 1 = marks ((k : Int) :: S) 0 n := by
    rw [marks_set, Nat.zero_add]
  simp only [axesLoop, marks_length]
  rw [if_neg h2, hk, Int.toNat_ofNat, hg, hs]
  simp

/-- On axes that are all in range and pairwise distinct after normalization,
and distinct from the positions already marked, the loop completes and leaves
exactly the old and the new positions marked. -/
theorem axesLoop_valid (n : Nat) (axes S : List Int)
    (hr : ∀ a ∈ axes, 0 ≤ HandleNegativeAxis a n ∧ HandleNegativeAxis a n < n)
    (hnd : (normalizedAxes axes n).Nodup)
    (hS : ∀ a ∈ axes, ¬ HandleNegativeAxis a n ∈ S) :
    axesLoop axes (marks S 0 n) = .ok (marks (normalizedAxes axes n ++ S) 0 n) := by
  induction axes generalizing S with
  | nil => simp [axesLoop, normalizedAxes]
  | cons a rest ih =>
    have ha := hr a (List.mem_cons_self _ _)
    have hnd2 : ¬ HandleNegativeAxis a n ∈ normalizedAxes rest n ∧ (normalizedAxes rest n).Nodup := by
      simpa [normalizedAxes] using hnd
    rw [axesLoop_cons_fresh S n a rest ha (hS a (List.mem_cons_self _ _))]
    rw [ih (HandleNegativeAxis a n :: S) (fun b hb => hr b (List.mem_cons_of_mem _ hb)) hnd2.2]
    · congr 1
      apply marks_congr
      intro x _ _
      simp only [normalizedAxes, List.map_cons, List.mem_append, List.mem_cons, List.cons_append]
      tauto
    · intro b hb hc
      rcases List.mem_cons.mp hc with h1 | h1
      · apply hnd2.1
        rw [← h1]
        exact List.mem_map_of_mem _ hb
      · exact hS b (List.mem_cons_of_mem _ hb) h1

/-- When no two of the axes before an out-of-range axis coincide after
normalization (nor hit a marked position), the loop ends with the out-of-range
status. -/
theorem axesLoop_outOfRange (n : Nat) (pre : List Int) (a : Int) (rest S : List Int)
    (hnd : (normalizedAxes pre n).Nodup)
    (hS : ∀ b ∈ pre, ¬ HandleNegativeAxis b n ∈ S)
    (ha : ¬ (0 ≤ HandleNegativeAxis a n ∧ HandleNegativeAxis a n < n)) :
    axesLoop (pre ++ a :: rest) (marks S 0 n) = .error outOfRangeAxis := by
  induction pre generalizing S with
  | nil => exact axesLoop_cons_outOfRange S n a rest ha
  | cons b pre ih =>
    have hnd2 : ¬ HandleNegativeAxis b n ∈ normalizedAxes pre n ∧ (normalizedAxes pre n).Nodup := by
      simpa [normalizedAxes] using hnd
    by_cases hb : 0 ≤ HandleNegativeAxis b n ∧ HandleNegativeAxis b n < n
    · rw [List.cons_append, axesLoop_cons_fresh S n b _ hb (hS b (List.mem_cons_self _ _))]
      apply ih _ hnd2.2
      intro c hc hm
      rcases List.mem_cons.mp hm with h1 | h1
      · apply hnd2.1
        rw [← h1]
        exact List.mem_map_of_mem _ hc
      · exact hS c (List.mem_cons_of_mem _ hc) h1
    · rw [List.cons_append]
      exact axesLoop_cons_outOfRange S n b _ hb

/-- When every axis before a repeated in-range axis is itself in range, the
loop ends with the duplicate status. -/
theorem axesLoop_duplicate (n : Nat) (pre : List Int) (a : Int) (rest S : List Int)
    (hr : ∀ b ∈ pre, 0 ≤ HandleNegativeAxis b n ∧ HandleNegativeAxis b n < n)
    (ha : 0 ≤ HandleNegativeAxis a n ∧ HandleNegativeAxis a n < n)
    (hm : HandleNegativeAxis a n ∈ normalizedAxes pre n ∨ HandleNegativeAxis a n ∈ S) :
    axesLoop (pre ++ a :: rest) (marks S 0 n) = .error duplicateAxis := by
  induction pre generalizing S with
  | nil =>
    rcases hm with h1 | h1
    · simp [normalizedAxes] at h1
    · exact axesLoop_cons_duplicate S n a rest ha h1
  | cons b pre ih =>
    have hb := hr b (List.mem_cons_self _ _)
    by_cases hbS : HandleNegativeAxis b n ∈ S
    · rw [List.cons_append]
      exact axesLoop_cons_duplicate S n b _ hb hbS
    · rw [List.cons_append, axesLoop_cons_fresh S n b _ hb hbS]
      apply ih _ (fun c hc => hr c (List.mem_cons_of_mem _ hc))
      rcases hm with h1 | h1
      · simp only [normalizedAxes, List.map_cons, List.mem_cons] at h1
        rcases h1 with h2 | h2
        · right; rw [h2]; exact List.mem_cons_self _ _
        · left; exact h2
      · right; exact List.mem_cons_of_mem _ h1

/-! ### The fill loop on a marked array -/

/-- With at least as many input dimensions left as there are unmarked slots,
the fill loop completes, consumes exactly that many dimensions, and the slots
outside `S` of its result are those dimensions in order. -/
theorem fillLoop_marks (S : List Int) (m i : Nat) (inp : List Int)
    (h : unmarked S i m ≤ inp.length) :
    ∃ out, fillLoop (marks S i m) inp = some (out, inp.drop (unmarked S i m))
      ∧ out.length = m
      ∧ removeAxesFrom S i out = inp.take (unmarked S i m) := by
  induction m generalizing i inp with
  | zero => exact ⟨[], by simp [marks, fillLoop, unmarked, removeAxesFrom]⟩
  | succ m ih =>
    by_cases hi : (i : Int) ∈ S
    · have hu : unmarked S i (m + 1) = unmarked S (i + 1) m := by simp [unmarked, hi]
      obtain ⟨out, h1, h2, h3⟩ := ih (i + 1) inp (by omega)
      refine ⟨1 :: out, ?_, by simp [h2], ?_⟩
      · simp [marks, hi, fillLoop, h1, hu]
      · simp [removeAxesFrom, hi, h3, hu]
    · have hu : unmarked S i (m + 1) = unmarked S (i + 1) m + 1 := by
        simp [unmarked, hi]; omega
      cases inp with
      | nil => simp [hu] at h
      | cons d inp =>
        have hl : unmarked S (i + 1) m ≤ inp.length := by
          simp only [List.length_cons] at h; omega
        obtain ⟨out, h1, h2, h3⟩ := ih (i + 1) inp hl
        refine ⟨d :: out, ?_, by simp [h2], ?_⟩
        · simp [marks, hi, fillLoop, h1, hu]
        · simp [removeAxesFrom, hi, h3, hu]

/-! ### General facts about completed loops -/

theorem getD_set_one (D : List Int) (k j : Nat) (h : D.getD j 0 = 1) :
    (D.set k 1).getD j 0 = 1 := by
  induction D generalizing k j with
  | nil => simp at h
  | cons d D ih =>
    cases k with
    | zero =>
      cases j with
      | zero => simp
      | succ j => simpa using h
    | succ k =>
      cases j with
      | zero => simpa using h
      | succ j =>
        simp only [List.set_cons_succ, List.getD_cons_succ] at h ⊢
        exact ih k j h

theorem getD_set_self (D : List Int) (k : Nat) (h : k < D.length) :
    (D.set k 1).getD k 0 = 1 := by
  induction D generalizing k with
  | nil => simp at h
  | cons d D ih =>
    cases k with
    | zero => simp
    | succ k =>
      simp only [List.set_cons_succ, List.getD_cons_succ]
      exact ih k (by simpa using h)

/-- A completed axis loop keeps the length, keeps every 1, and has put a 1 at
the normalized position of each axis, all of which are in range. -/
theorem axesLoop_ok (axes D D2 : List Int) (h : axesLoop axes D = .ok D2) :
    D2.length = D.length
      ∧ (∀ j, D.getD j 0 = 1 → D2.getD j 0 = 1)
      ∧ ∀ a ∈ axes, 0 ≤ HandleNegativeAxis a D.length
          ∧ HandleNegativeAxis a D.length < D.length
          ∧ D2.getD (HandleNegativeAxis a D.length).toNat 0 = 1 := by
  induction axes generalizing D with
  | nil =>
    simp only [axesLoop, Except.ok.injEq] at h
    subst h
    simp
  | cons a rest ih =>
    simp only [axesLoop] at h
    split at h
    · cases h
    · rename_i hr
      split at h
      · cases h
      · obtain ⟨h1, h2, h3⟩ := ih _ h
        have hlen : (D.set (HandleNegativeAxis a D.length).toNat 1).length = D.length := by simp
        have hr1 : 0 ≤ HandleNegativeAxis a D.length := by omega
        have hr2 : HandleNegativeAxis a D.length < D.length := by omega
        refine ⟨by rw [h1, hlen], fun j hj => h2 j (getD_set_one D _ j hj), ?_⟩
        intro b hb
        rcases List.mem_cons.mp hb with e | hb
        · subst e
          refine ⟨hr1, hr2, h2 _ (getD_set_self D _ ?_)⟩
          omega
        · have := h3 b hb
          rw [hlen] at this
          exact this

/-- A completed fill loop keeps the length and every non-zero slot. -/
theorem fillLoop_ok (D inp out fin : List Int) (h : fillLoop D inp = some (out, fin)) :
    out.length = D.length ∧ ∀ j, D.getD j 0 ≠ 0 → out.getD j 0 = D.getD j 0 := by
  induction D generalizing inp out with
  | nil =>
    simp only [fillLoop, Option.some.injEq, Prod.mk.injEq] at h
    obtain ⟨h1, _⟩ := h
    subst h1
    simp
  | cons d D ih =>
    simp only [fillLoop] at h
    split at h
    · rename_i hd
      cases inp with
      | nil => simp at h
      | cons x inp =>
        simp only at h
        cases hf : fillLoop D inp with
        | none => simp [hf] at h
        | some r =>
          obtain ⟨o, f⟩ := r
          simp only [hf, Option.some.injEq, Prod.mk.injEq] at h
          obtain ⟨h1, h2⟩ := h
          subst h1 h2
          obtain ⟨i1, i2⟩ := ih _ _ hf
          refine ⟨by simp [i1], ?_⟩
          intro j hj
          cases j with
          | zero => simp [hd] at hj
          | succ j => simpa using i2 j (by simpa using hj)
    · rename_i hd
      cases hf : fillLoop D inp with
      | none => simp [hf] at h
      | some r =>
        obtain ⟨o, f⟩ := r
        simp only [hf, Option.some.injEq, Prod.mk.injEq] at h
        obtain ⟨h1, h2⟩ := h
        subst h1 h2
        obtain ⟨i1, i2⟩ := ih _ _ hf
        refine ⟨by simp [i1], ?_⟩
        intro j hj
        cases j with
        | zero => simp
        | succ j => simpa using i2 j (by simpa using hj)

/-- The shape computed for valid axes, with the rank written as the code
computes it (`axes.size() + input_shape.NumDimensions()`). -/
theorem PrepareCompute_valid_core (ctx : OpKernelContext) (input_shape output_shape : TensorShape)
    (hsparse : sparseCheck ctx.inputIsSparse ctx.axes = none)
    (hr : ∀ a ∈ ctx.axes,
      0 ≤ HandleNegativeAxis a ((ctx.axes.length + input_shape.length : Nat) : Int)
        ∧ HandleNegativeAxis a ((ctx.axes.length + input_shape.length : Nat) : Int)
            < ((ctx.axes.length + input_shape.length : Nat) : Int))
    (hnd : (normalizedAxes ctx.axes (ctx.axes.length + input_shape.length)).Nodup) :
    ∃ out, PrepareCompute ctx input_shape output_shape = .ok (Status.OK, out)
      ∧ out.length = ctx.axes.length + input_shape.length
      ∧ removeAxes (normalizedAxes ctx.axes (ctx.axes.length + input_shape.length)) out
          = input_shape := by
  have hloop := axesLoop_valid (ctx.axes.length + input_shape.length) ctx.axes [] hr hnd
    (fun a _ => by simp)
  rw [List.append_nil, marks_nil] at hloop
  have hcount := unmarked_count (ctx.axes.length + input_shape.length)
    (normalizedAxes ctx.axes (ctx.axes.length + input_shape.length)) hnd (by
      intro s hs
      simp only [normalizedAxes, List.mem_map] at hs
      obtain ⟨a, ha, e⟩ := hs
      rw [← e]
      exact hr a ha)
  have hlen : (normalizedAxes ctx.axes (ctx.axes.length + input_shape.length)).length
      = ctx.axes.length := by simp [normalizedAxes]
  have hu : unmarked (normalizedAxes ctx.axes (ctx.axes.length + input_shape.length)) 0
      (ctx.axes.length + input_shape.length) = input_shape.length := by omega
  obtain ⟨out, h1, h2, h3⟩ := fillLoop_marks
    (normalizedAxes ctx.axes (ctx.axes.length + input_shape.length))
    (ctx.axes.length + input_shape.length) 0 input_shape (by omega)
  rw [hu] at h1 h3
  rw [List.drop_length] at h1
  rw [List.take_length] at h3
  refine ⟨out, ?_, h2, h3⟩
  simp only [PrepareCompute, hsparse, hloop, h1]
  simp

/-! ### Decomposition of a return of `PrepareCompute` -/

theorem sparseCheck_ne_OK (b : Bool) (axes : List Int) (st : Status)
    (h : sparseCheck b axes = some st) :
    ∃ msg, st = Status.error StatusCategory.ONNXRUNTIME StatusCode.INVALID_ARGUMENT msg := by
  unfold sparseCheck at h
  split at h
  · split at h
    · exact ⟨_, (Option.some.inj h).symm⟩
    · split at h
      · cases h
      · split at h
        · exact ⟨_, (Option.some.inj h).symm⟩
        · cases h
  · cases h

theorem axesLoop_error (axes D : List Int) (st : Status) (h : axesLoop axes D = .error st) :
    st = outOfRangeAxis ∨ st = duplicateAxis := by
  induction axes generalizing D with
  | nil => simp [axesLoop] at h
  | cons a rest ih =>
    simp only [axesLoop] at h
    split at h
    · left; exact (Except.error.inj h).symm
    · split at h
      · right; exact (Except.error.inj h).symm
      · exact ih _ h

/-- A successful return went through the sparse check, completed both loops and
found the input dimensions consumed exactly. -/
theorem PrepareCompute_ok (ctx : OpKernelContext) (input_shape output_shape out : TensorShape)
    (h : PrepareCompute ctx input_shape output_shape = .ok (Status.OK, out)) :
    sparseCheck ctx.inputIsSparse ctx.axes = none
      ∧ ∃ D, axesLoop ctx.axes (List.replicate (ctx.axes.length + input_shape.length) 0) = .ok D
          ∧ fillLoop D input_shape = some (out, []) := by
  unfold PrepareCompute at h
  simp only at h
  split at h
  · rename_i st hst
    obtain ⟨msg, e⟩ := sparseCheck_ne_OK _ _ _ hst
    subst e
    simp at h
  · rename_i hst
    refine ⟨hst, ?_⟩
    split at h
    · rename_i st hl
      rcases axesLoop_error _ _ _ hl with e | e <;> subst e <;>
        simp [outOfRangeAxis, duplicateAxis] at h
    · rename_i D hl
      refine ⟨D, hl, ?_⟩
      split at h
      · cases h
      · rename_i o fin hf
        split at h
        · rename_i hfin
          subst hfin
          simp only [Except.ok.injEq, Prod.mk.injEq, true_and] at h
          subst h
          exact hf
        · cases h

/-- A return with an error status leaves the caller's `output_shape` as it was. -/
theorem PrepareCompute_error (ctx : OpKernelContext) (input_shape output_shape out : TensorShape)
    (st : Status) (h : PrepareCompute ctx input_shape output_shape = .ok (st, out))
    (hst : st ≠ Status.OK) : out = output_shape := by
  unfold PrepareCompute at h
  simp only at h
  split at h
  · simp only [Except.ok.injEq, Prod.mk.injEq] at h
    exact h.2.symm
  · split at h
    · simp only [Except.ok.injEq, Prod.mk.injEq] at h
      exact h.2.symm
    · split at h
      · cases h
      · split at h
        · simp only [Except.ok.injEq, Prod.mk.injEq] at h
          exact absurd h.1.symm hst
        · cases h

end onnxruntime

/-! ## Properties of axis insertion -/

namespace onnxruntime

open UnsqueezeBase

/-- C1 (as stated) fails: on a sparse input of shape [2,3] the axis list [0,1]
is in range and duplicate-free against output rank 4, yet `PrepareCompute`
returns the error of the sparse check and leaves `output_shape` untouched. -/
theorem PrepareCompute_sparse_rejects_two_valid_axes :
    (∀ a ∈ (shapeOnlyContext [0, 1] true).axes,
        0 ≤ HandleNegativeAxis a 4 ∧ HandleNegativeAxis a 4 < 4)
      ∧ (normalizedAxes (shapeOnlyContext [0, 1] true).axes 4).Nodup
      ∧ PrepareCompute (shapeOnlyContext [0, 1] true) [2, 3] []
          = .ok (ORT_RETURN_IF_NOT_status
              "Axes expected to have at most 1 element for sparse Unsqueeze", []) := by
  refine ⟨by decide, by decide, by decide⟩

/-- C1 (amended): when the sparse check lets the call proceed (always so for a
dense input) and the axes, normalized against the output rank r+k, are all in
[0, r+k) and pairwise distinct, `PrepareCompute` succeeds with an output shape
of rank r+k, and deleting from it the entries at the normalized axis positions
yields exactly the input shape. -/
theorem PrepareCompute_removeAxes_eq_input (ctx : OpKernelContext)
    (input_shape output_shape : TensorShape)
    (hsparse : sparseCheck ctx.inputIsSparse ctx.axes = none)
    (hr : ∀ a ∈ ctx.axes,
      0 ≤ HandleNegativeAxis a ((input_shape.length + ctx.axes.length : Nat) : Int)
        ∧ HandleNegativeAxis a ((input_shape.length + ctx.axes.length : Nat) : Int)
            < ((input_shape.length + ctx.axes.length : Nat) : Int))
    (hnd : (normalizedAxes ctx.axes (input_shape.length + ctx.axes.length)).Nodup) :
    ∃ out, PrepareCompute ctx input_shape output_shape = .ok (Status.OK, out)
      ∧ out.length = input_shape.length + ctx.axes.length
      ∧ removeAxes (normalizedAxes ctx.axes (input_shape.length + ctx.axes.length)) out
          = input_shape := by
  have e : input_shape.length + ctx.axes.length = ctx.axes.length + input_shape.length :=
    Nat.add_comm _ _
  rw [e] at hr hnd ⊢
  exact PrepareCompute_valid_core ctx input_shape output_shape hsparse hr hnd

/-- C1 (amended), at the dense input shape [0,3] with axes [-1,-4]. -/
theorem PrepareCompute_removeAxes_eq_input_witness :
    ∃ out, PrepareCompute (shapeOnlyContext [-1, -4] false) [0, 3] [7]
        = .ok (Status.OK, out)
      ∧ out.length = 2 + 2
      ∧ removeAxes (normalizedAxes [-1, -4] (2 + 2)) out = [0, 3] :=
  PrepareCompute_removeAxes_eq_input (shapeOnlyContext [-1, -4] false) [0, 3] [7]
    (by decide) (by decide) (by decide)

/-- C2: whenever `PrepareCompute` succeeds on an input shape of rank r and an
axis list of length k, the output shape has rank exactly r+k, every axis
normalizes into [0, r+k), and the output dimension at every normalized axis
position is 1. -/
theorem PrepareCompute_rank_and_singletons (ctx : OpKernelContext)
    (input_shape output_shape out : TensorShape)
    (h : PrepareCompute ctx input_shape output_shape = .ok (Status.OK, out)) :
    out.length = input_shape.length + ctx.axes.length
      ∧ ∀ a ∈ ctx.axes,
          0 ≤ HandleNegativeAxis a ((input_shape.length + ctx.axes.length : Nat) : Int)
            ∧ HandleNegativeAxis a ((input_shape.length + ctx.axes.length : Nat) : Int)
                < ((input_shape.length + ctx.axes.length : Nat) : Int)
            ∧ out[(HandleNegativeAxis a
                ((input_shape.length + ctx.axes.length : Nat) : Int)).toNat]? = some 1 := by
  obtain ⟨_, D, hD, hf⟩ := PrepareCompute_ok ctx input_shape output_shape out h
  obtain ⟨a1, _, a3⟩ := axesLoop_ok _ _ _ hD
  obtain ⟨f1, f2⟩ := fillLoop_ok _ _ _ _ hf
  have e : input_shape.length + ctx.axes.length = ctx.axes.length + input_shape.length :=
    Nat.add_comm _ _
  rw [e]
  simp only [List.length_replicate] at a1 a3
  refine ⟨by rw [f1, a1], ?_⟩
  intro a ha
  obtain ⟨b1, b2, b3⟩ := a3 a ha
  refine ⟨b1, b2, ?_⟩
  have hg := f2 _ (by rw [b3]; decide)
  rw [b3] at hg
  have hlt : (HandleNegativeAxis a ((ctx.axes.length + input_shape.length : Nat) : Int)).toNat
      < out.length := by
    rw [f1, a1]; omega
  rw [List.getD_eq_getElem?_getD] at hg
  rw [List.getElem?_eq_getElem hlt] at hg ⊢
  simpa using hg

/-- C2, at the dense input shape [2,3] with axes [0,-1]. -/
theorem PrepareCompute_rank_and_singletons_witness :
    PrepareCompute (shapeOnlyContext [0, -1] false) [2, 3] [] = .ok (Status.OK, [1, 2, 3, 1])
      ∧ ([1, 2, 3, 1] : List Int).length = 2 + 2
      ∧ ∀ a ∈ ([0, -1] : List Int),
          0 ≤ HandleNegativeAxis a ((2 + 2 : Nat) : Int)
            ∧ HandleNegativeAxis a ((2 + 2 : Nat) : Int) < ((2 + 2 : Nat) : Int)
            ∧ ([1, 2, 3, 1] : List Int)[(HandleNegativeAxis a
                ((2 + 2 : Nat) : Int)).toNat]? = some 1 :=
  ⟨by decide,
    PrepareCompute_rank_and_singletons (shapeOnlyContext [0, -1] false) [2, 3] [] [1, 2, 3, 1]
      (by decide)⟩

/-- The axis loop sees an axis only through its normalized value. -/
theorem axesLoop_congr_normalized (n : Nat) (axes axes2 : List Int)
    (h : List.Forall₂ (fun a b => HandleNegativeAxis b n = HandleNegativeAxis a n) axes axes2)
    (D : List Int) (hD : D.length = n) : axesLoop axes2 D = axesLoop axes D := by
  induction h generalizing D with
  | nil => rfl
  | cons hab _ ih =>
    simp only [axesLoop, hD, hab]
    split
    · rfl
    · split
      · rfl
      · exact ih _ (by simp [hD])

/-- On a sparse input the check gives the same verdict after the replacement of
negative axes, unless a single negative axis is replaced by 0 or 1. -/
theorem sparseCheck_replaced (n : Int) (axes axes2 : List Int)
    (hrel : List.Forall₂ (fun a b => b = a ∨ (-n ≤ a ∧ a < 0 ∧ b = n + a)) axes axes2)
    (hsp : ¬ ∃ a, axes = [a] ∧ a < 0 ∧ (axes2 = [0] ∨ axes2 = [1])) :
    sparseCheck true axes2 = sparseCheck true axes := by
  cases hrel with
  | nil => rfl
  | cons hab htl =>
    rename_i a b as bs
    cases htl with
    | nil =>
      rcases hab with h1 | ⟨_, h2, h3⟩
      · rw [h1]
      · have hb0 : b ≠ 0 := by
          intro c
          exact hsp ⟨a, rfl, h2, Or.inl (by rw [c])⟩
        have hb1 : b ≠ 1 := by
          intro c
          exact hsp ⟨a, rfl, h2, Or.inr (by rw [c])⟩
        have ha0 : a ≠ 0 := by omega
        have ha1 : a ≠ 1 := by omega
        simp [sparseCheck, hb0, hb1, ha0, ha1]
    | cons _ _ => simp [sparseCheck]

/-- The result of `PrepareCompute` depends on the axis list only through the
outcome of the sparse check, its length, and the outcome of the axis loop. -/
theorem PrepareCompute_congr (ctx : OpKernelContext) (axes2 : List Int)
    (input_shape output_shape : TensorShape)
    (hs : sparseCheck ctx.inputIsSparse axes2 = sparseCheck ctx.inputIsSparse ctx.axes)
    (hl : axes2.length = ctx.axes.length)
    (ha : axesLoop axes2 (List.replicate (ctx.axes.length + input_shape.length) 0)
        = axesLoop ctx.axes (List.replicate (ctx.axes.length + input_shape.length) 0)) :
    PrepareCompute { ctx with axes := axes2 } input_shape output_shape
      = PrepareCompute ctx input_shape output_shape := by
  simp only [PrepareCompute, hs, hl, ha]

/-- C3 (as stated) fails: on a sparse input of shape [5] (output rank 2) the
axis -2 is rejected by the sparse check, which tests the raw value, while its
normalized equivalent 2 + (-2) = 0 is accepted and yields [1,5]. -/
theorem PrepareCompute_sparse_negative_axis_differs :
    (-(2 : Int) ≤ -2 ∧ (-2 : Int) < 0 ∧ (2 : Int) + (-2) = 0)
      ∧ PrepareCompute (shapeOnlyContext [-2] true) [5] []
          = .ok (ORT_RETURN_IF_NOT_status
              "Axes entry may be either 0 or 1 for sparse tensors", [])
      ∧ PrepareCompute (shapeOnlyContext [0] true) [5] [] = .ok (Status.OK, [1, 5]) := by
  refine ⟨by decide, by decide, by decide⟩

/-- C3 (amended): replacing any of the negative axes a with -rank_out <= a < 0
by rank_out + a (rank_out = input rank + axis-list length) leaves the result of
`PrepareCompute` unchanged - same output shape, same error, same fault - except
when the input is sparse and the list is a single negative axis whose
replacement is 0 or 1. -/
theorem PrepareCompute_negative_axis_replaced (ctx : OpKernelContext) (axes2 : List Int)
    (input_shape output_shape : TensorShape)
    (hrel : List.Forall₂
      (fun a b => b = a ∨
        (-((input_shape.length + ctx.axes.length : Nat) : Int) ≤ a ∧ a < 0
          ∧ b = ((input_shape.length + ctx.axes.length : Nat) : Int) + a))
      ctx.axes axes2)
    (hsp : ¬ (ctx.inputIsSparse = true
      ∧ ∃ a, ctx.axes = [a] ∧ a < 0 ∧ (axes2 = [0] ∨ axes2 = [1]))) :
    PrepareCompute { ctx with axes := axes2 } input_shape output_shape
      = PrepareCompute ctx input_shape output_shape := by
  have e : input_shape.length + ctx.axes.length = ctx.axes.length + input_shape.length :=
    Nat.add_comm _ _
  rw [e] at hrel
  have hl : axes2.length = ctx.axes.length := hrel.length_eq.symm
  apply PrepareCompute_congr ctx axes2 input_shape output_shape _ hl
  · apply axesLoop_congr_normalized (ctx.axes.length + input_shape.length) _ _ _ _ (by simp)
    refine hrel.imp ?_
    intro a b hab
    rcases hab with h1 | ⟨h1, h2, h3⟩
    · rw [h1]
    · subst h3
      simp only [HandleNegativeAxis]
      rw [if_pos h2, if_neg (by omega)]
      omega
  · cases hsparse : ctx.inputIsSparse with
    | false => simp [sparseCheck]
    | true =>
      rw [hsparse] at hsp
      exact sparseCheck_replaced _ ctx.axes axes2 hrel (fun h => hsp ⟨rfl, h⟩)

/-- C3 (amended), at the dense input shape [2,3] with axes [0,-1] replaced by [0,3]. -/
theorem PrepareCompute_negative_axis_replaced_witness :
    PrepareCompute { shapeOnlyContext [0, -1] false with axes := [0, 3] } [2, 3] []
      = PrepareCompute (shapeOnlyContext [0, -1] false) [2, 3] [] :=
  PrepareCompute_negative_axis_replaced (shapeOnlyContext [0, -1] false) [0, 3] [2, 3] []
    (List.Forall₂.cons (Or.inl rfl)
      (List.Forall₂.cons (Or.inr (by decide)) List.Forall₂.nil))
    (fun h => absurd h.1 (by decide))

/-- The return of `PrepareCompute` when the sparse check passes and the axis
loop ends with an error. -/
theorem PrepareCompute_axesLoop_error (ctx : OpKernelContext)
    (input_shape output_shape : TensorShape) (st : Status)
    (hsparse : sparseCheck ctx.inputIsSparse ctx.axes = none)
    (hloop : axesLoop ctx.axes (marks [] 0 (input_shape.length + ctx.axes.length)) = .error st) :
    PrepareCompute ctx input_shape output_shape = .ok (st, output_shape) := by
  rw [marks_nil, Nat.add_comm] at hloop
  simp only [PrepareCompute, hsparse, hloop]

/-- C4 (as stated) fails: on the dense input shape [2,3] with axes [7,0,0]
(output rank 5) two entries normalize to position 0, yet the error is the
out-of-range one raised by the earlier axis 7; and on a sparse input of shape
[2,3] the axes [0,-4] of the claim are rejected by the sparse check instead. -/
theorem PrepareCompute_duplicate_preceded_by_other_error :
    (normalizedAxes [7, 0, 0] ([2, 3].length + [7, 0, 0].length) = [7, 0, 0]
      ∧ PrepareCompute (shapeOnlyContext [7, 0, 0] false) [2, 3] []
          = .ok (outOfRangeAxis, []))
      ∧ (normalizedAxes [0, -4] ([2, 3].length + [0, -4].length) = [0, 0]
        ∧ PrepareCompute (shapeOnlyContext [0, -4] true) [2, 3] []
            = .ok (ORT_RETURN_IF_NOT_status
                "Axes expected to have at most 1 element for sparse Unsqueeze", [])) := by
  refine ⟨⟨by decide, by decide⟩, by decide, by decide⟩

/-- C4 (amended): for a dense input, when an entry of the axis list normalizes
to the same in-range output position as an earlier entry and no entry before it
is out of range, `PrepareCompute` fails with the invalid-argument error
"'axes' has a duplicate axis" and leaves `output_shape` unassigned. -/
theorem PrepareCompute_duplicate_axis (ctx : OpKernelContext)
    (input_shape output_shape : TensorShape) (pre : List Int) (a : Int) (rest : List Int)
    (hdense : ctx.inputIsSparse = false)
    (hax : ctx.axes = pre ++ a :: rest)
    (hpre : ∀ b ∈ pre,
      0 ≤ HandleNegativeAxis b ((input_shape.length + ctx.axes.length : Nat) : Int)
        ∧ HandleNegativeAxis b ((input_shape.length + ctx.axes.length : Nat) : Int)
            < ((input_shape.length + ctx.axes.length : Nat) : Int))
    (ha : 0 ≤ HandleNegativeAxis a ((input_shape.length + ctx.axes.length : Nat) : Int)
        ∧ HandleNegativeAxis a ((input_shape.length + ctx.axes.length : Nat) : Int)
            < ((input_shape.length + ctx.axes.length : Nat) : Int))
    (hdup : HandleNegativeAxis a ((input_shape.length + ctx.axes.length : Nat) : Int)
        ∈ normalizedAxes pre (input_shape.length + ctx.axes.length)) :
    PrepareCompute ctx input_shape output_shape = .ok (duplicateAxis, output_shape) := by
  apply PrepareCompute_axesLoop_error
  · simp [sparseCheck, hdense]
  · have := axesLoop_duplicate (input_shape.length + ctx.axes.length) pre a rest [] hpre ha
      (Or.inl hdup)
    rw [← hax] at this
    exact this

/-- C4 (amended), at the dense input shape [2,3] with axes [0,-4]. -/
theorem PrepareCompute_duplicate_axis_witness :
    PrepareCompute (shapeOnlyContext [0, -4] false) [2, 3] [9] = .ok (duplicateAxis, [9]) :=
  PrepareCompute_duplicate_axis (shapeOnlyContext [0, -4] false) [2, 3] [9] [0] (-4) []
    rfl rfl (by decide) (by decide) (by decide)

/-- C5 (as stated) fails: on the dense input shape [2] with axes [0,0,9]
(output rank 4) the axis 9 is out of range, yet the error is the duplicate one
raised by the earlier repeated axis 0; and on a sparse input of shape [2] the
out-of-range axis 5 (output rank 2) is rejected by the sparse check instead. -/
theorem PrepareCompute_outOfRange_preceded_by_other_error :
    (¬ (0 ≤ HandleNegativeAxis 9 4 ∧ HandleNegativeAxis 9 4 < 4)
      ∧ PrepareCompute (shapeOnlyContext [0, 0, 9] false) [2] []
          = .ok (duplicateAxis, []))
      ∧ (¬ (0 ≤ HandleNegativeAxis 5 2 ∧ HandleNegativeAxis 5 2 < 2)
        ∧ PrepareCompute (shapeOnlyContext [5] true) [2] []
            = .ok (ORT_RETURN_IF_NOT_status
                "Axes entry may be either 0 or 1 for sparse tensors", [])) := by
  refine ⟨⟨by decide, by decide⟩, by decide, by decide⟩

/-- C5 (amended): when the sparse check lets the call proceed (always so for a
dense input) and the axis list contains an axis whose normalized value lies
outside [0, rank_out), with the entries before it pairwise distinct after
normalization, `PrepareCompute` fails with the invalid-argument error
"'axes' has an out of range axis" and leaves `output_shape` unassigned. -/
theorem PrepareCompute_outOfRange_axis (ctx : OpKernelContext)
    (input_shape output_shape : TensorShape) (pre : List Int) (a : Int) (rest : List Int)
    (hsparse : sparseCheck ctx.inputIsSparse ctx.axes = none)
    (hax : ctx.axes = pre ++ a :: rest)
    (hpre : (normalizedAxes pre (input_shape.length + ctx.axes.length)).Nodup)
    (ha : ¬ (0 ≤ HandleNegativeAxis a ((input_shape.length + ctx.axes.length : Nat) : Int)
        ∧ HandleNegativeAxis a ((input_shape.length + ctx.axes.length : Nat) : Int)
            < ((input_shape.length + ctx.axes.length : Nat) : Int))) :
    PrepareCompute ctx input_shape output_shape = .ok (outOfRangeAxis, output_shape) := by
  apply PrepareCompute_axesLoop_error _ _ _ _ hsparse
  have := axesLoop_outOfRange (input_shape.length + ctx.axes.length) pre a rest [] hpre
    (fun b _ => by simp) ha
  rw [← hax] at this
  exact this

/-- C5 (amended), at the dense input shape [2,3] with axes [0,-6,1]. -/
theorem PrepareCompute_outOfRange_axis_witness :
    PrepareCompute (shapeOnlyContext [0, -6, 1] false) [2, 3] [9] = .ok (outOfRangeAxis, [9]) :=
  PrepareCompute_outOfRange_axis (shapeOnlyContext [0, -6, 1] false) [2, 3] [9] [0] (-6) [1]
    rfl rfl (by decide) (by decide)

/-- C6 (as stated) fails: on a sparse input of shape [5,6] the single axis -2
has the normalized value 3 + (-2) = 1, yet the sparse check rejects it, because
it compares the raw value with 0 and 1. -/
theorem sparseCheck_rejects_negative_axis_normalizing_to_one :
    HandleNegativeAxis (-2) (([5, 6].length + [-2].length : Nat) : Int) = 1
      ∧ sparseCheck true [-2]
          = some (ORT_RETURN_IF_NOT_status "Axes entry may be either 0 or 1 for sparse tensors")
      ∧ PrepareCompute (shapeOnlyContext [-2] true) [5, 6] []
          = .ok (ORT_RETURN_IF_NOT_status
              "Axes entry may be either 0 or 1 for sparse tensors", []) := by
  refine ⟨by decide, by decide, by decide⟩

/-- C6 (amended): when the input is a sparse tensor, the sparse check of
`PrepareCompute` rejects the axis list with an invalid-argument error, which
`PrepareCompute` returns with `output_shape` unassigned, if it has more than one
axis or its single axis has a raw value other than 0 or 1; otherwise (no axis,
or a single axis equal to 0 or 1) the sparse check accepts it. -/
theorem sparseCheck_rejects_iff_raw (ctx : OpKernelContext)
    (input_shape output_shape : TensorShape) (hs : ctx.inputIsSparse = true) :
    ((1 < ctx.axes.length ∨ ∃ a, ctx.axes = [a] ∧ a ≠ 0 ∧ a ≠ 1) →
        ∃ msg, sparseCheck ctx.inputIsSparse ctx.axes
              = some (Status.error StatusCategory.ONNXRUNTIME StatusCode.INVALID_ARGUMENT msg)
          ∧ PrepareCompute ctx input_shape output_shape
              = .ok (Status.error StatusCategory.ONNXRUNTIME StatusCode.INVALID_ARGUMENT msg,
                  output_shape))
      ∧ (¬ (1 < ctx.axes.length ∨ ∃ a, ctx.axes = [a] ∧ a ≠ 0 ∧ a ≠ 1) →
          sparseCheck ctx.inputIsSparse ctx.axes = none) := by
  constructor
  · intro h
    have key : ∃ msg, sparseCheck ctx.inputIsSparse ctx.axes
        = some (Status.error StatusCategory.ONNXRUNTIME StatusCode.INVALID_ARGUMENT msg) := by
      rw [hs]
      rcases h with h | ⟨a, h1, h2, h3⟩
      · refine ⟨"Axes expected to have at most 1 element for sparse Unsqueeze", ?_⟩
        simp only [sparseCheck, if_true]
        rw [if_pos (by omega)]
        rfl
      · refine ⟨"Axes entry may be either 0 or 1 for sparse tensors", ?_⟩
        rw [h1]
        simp only [sparseCheck, if_true, List.length_singleton]
        rw [if_neg (by omega), if_pos (by omega)]
        rfl
    obtain ⟨msg, hm⟩ := key
    refine ⟨msg, hm, ?_⟩
    simp only [PrepareCompute, hm]
  · intro h
    rw [hs]
    push_neg at h
    obtain ⟨h1, h2⟩ := h
    match hax : ctx.axes with
    | [] => simp [sparseCheck]
    | [a] =>
      have := h2 a hax
      have h3 : a = 0 ∨ a = 1 := by
        by_cases h0 : a = 0
        · exact Or.inl h0
        · exact Or.inr (this h0)
      simp [sparseCheck, h3]
    | _ :: _ :: _ =>
      rw [hax] at h1
      simp at h1

/-- C6 (amended), on sparse inputs: the single axis -2 is rejected, the single
axis 1 is accepted. -/
theorem sparseCheck_rejects_iff_raw_witness :
    (∃ msg, sparseCheck (shapeOnlyContext [-2] true).inputIsSparse
              (shapeOnlyContext [-2] true).axes
              = some (Status.error StatusCategory.ONNXRUNTIME StatusCode.INVALID_ARGUMENT msg)
          ∧ PrepareCompute (shapeOnlyContext [-2] true) [5, 6] [9]
              = .ok (Status.error StatusCategory.ONNXRUNTIME StatusCode.INVALID_ARGUMENT msg,
                  [9]))
      ∧ sparseCheck (shapeOnlyContext [1] true).inputIsSparse (shapeOnlyContext [1] true).axes
          = none :=
  ⟨(sparseCheck_rejects_iff_raw (shapeOnlyContext [-2] true) [5, 6] [9] rfl).1
      (Or.inr ⟨-2, rfl, by decide, by decide⟩),
    (sparseCheck_rejects_iff_raw (shapeOnlyContext [1] true) [5, 6] [9] rfl).2
      (by simp [shapeOnlyContext])⟩

/-- C7: every error return of `PrepareCompute` is one of its three validation
errors and leaves the caller's `output_shape` unchanged; and when the call made
by `Unsqueeze::Compute` returns an error, `Compute` returns that same error with
the context exactly as it found it: no output tensor obtained, nothing copied. -/
theorem validation_failure_is_atomic (ctx : OpKernelContext) :
    (∀ (input_shape output_shape out : TensorShape) (st : Status),
        PrepareCompute ctx input_shape output_shape = .ok (st, out) → st ≠ Status.OK →
          out = output_shape
            ∧ (st = outOfRangeAxis ∨ st = duplicateAxis
                ∨ sparseCheck ctx.inputIsSparse ctx.axes = some st))
      ∧ (∀ (input_tensor : Tensor) (out : TensorShape) (st : Status),
          ctx.input0 = some input_tensor →
          PrepareCompute ctx input_tensor.shape [] = .ok (st, out) → st ≠ Status.OK →
            Unsqueeze.Compute ctx = .ok (st, ctx)) := by
  constructor
  · intro input_shape output_shape out st h hst
    refine ⟨PrepareCompute_error ctx input_shape output_shape out st h hst, ?_⟩
    unfold PrepareCompute at h
    simp only at h
    split at h
    · rename_i st2 h2
      simp only [Except.ok.injEq, Prod.mk.injEq] at h
      right; right
      rw [h2, h.1]
    · split at h
      · rename_i st2 h2
        simp only [Except.ok.injEq, Prod.mk.injEq] at h
        rcases axesLoop_error _ _ _ h2 with e | e
        · left; rw [← h.1, e]
        · right; left; rw [← h.1, e]
      · split at h
        · cases h
        · split at h
          · simp only [Except.ok.injEq, Prod.mk.injEq] at h
            exact absurd h.1.symm hst
          · cases h
  · intro input_tensor out st hin h hst
    simp only [Unsqueeze.Compute, hin, h]
    rw [if_pos hst]

/-- C7, on a dense input tensor of shape [2,3] with the out-of-range axis 4. -/
theorem validation_failure_is_atomic_witness :
    (([9] : TensorShape) = [9] ∧ (outOfRangeAxis = outOfRangeAxis ∨ outOfRangeAxis = duplicateAxis
        ∨ sparseCheck false [0, 4] = some outOfRangeAxis))
      ∧ Unsqueeze.Compute (denseContext [0, 4] ⟨[2, 3], [1, 2, 3, 4, 5, 6]⟩ (fun _ => some []))
          = .ok (outOfRangeAxis,
              denseContext [0, 4] ⟨[2, 3], [1, 2, 3, 4, 5, 6]⟩ (fun _ => some [])) :=
  ⟨(validation_failure_is_atomic
        (denseContext [0, 4] ⟨[2, 3], [1, 2, 3, 4, 5, 6]⟩ (fun _ => some []))).1
      [2, 3] [9] [9] outOfRangeAxis (by decide) (by decide),
    (validation_failure_is_atomic
        (denseContext [0, 4] ⟨[2, 3], [1, 2, 3, 4, 5, 6]⟩ (fun _ => some []))).2
      ⟨[2, 3], [1, 2, 3, 4, 5, 6]⟩ [] outOfRangeAxis rfl (by decide) (by decide)⟩

/-- C8 (as stated) fails: on a dense input tensor of shape [2,3] with the valid
axis list [0], when the context hands out no output tensor, `Compute` returns
the error "Failed to get output tensor" and produces no output. -/
theorem Compute_fails_without_output_tensor :
    (0 ≤ HandleNegativeAxis 0 3 ∧ HandleNegativeAxis 0 3 < 3)
      ∧ Unsqueeze.Compute (denseContext [0] ⟨[2, 3], [1, 2, 3, 4, 5, 6]⟩ (fun _ => none))
          = .ok (ORT_RETURN_IF_status "Failed to get output tensor",
              denseContext [0] ⟨[2, 3], [1, 2, 3, 4, 5, 6]⟩ (fun _ => none)) :=
  ⟨by decide, rfl⟩

/-- C8 (amended): for every input tensor and every axis list that the sparse
check lets through and whose normalized axes are in range and pairwise distinct,
provided the context hands out an output tensor for the computed shape,
`Compute` succeeds with an output tensor whose shape is the one computed by
`PrepareCompute` and whose element sequence is the input one; removing the
inserted axes from that shape gives back the input shape, so the round trip
restores the input tensor. -/
theorem Compute_copies_input (ctx : OpKernelContext) (input_tensor : Tensor)
    (hin : ctx.input0 = some input_tensor)
    (hsparse : sparseCheck ctx.inputIsSparse ctx.axes = none)
    (hr : ∀ a ∈ ctx.axes,
      0 ≤ HandleNegativeAxis a ((input_tensor.shape.length + ctx.axes.length : Nat) : Int)
        ∧ HandleNegativeAxis a ((input_tensor.shape.length + ctx.axes.length : Nat) : Int)
            < ((input_tensor.shape.length + ctx.axes.length : Nat) : Int))
    (hnd : (normalizedAxes ctx.axes (input_tensor.shape.length + ctx.axes.length)).Nodup)
    (hout : ∀ out, PrepareCompute ctx input_tensor.shape [] = .ok (Status.OK, out) →
      ctx.outputStorage out ≠ none) :
    ∃ out ctx2, PrepareCompute ctx input_tensor.shape [] = .ok (Status.OK, out)
      ∧ Unsqueeze.Compute ctx = .ok (Status.OK, ctx2)
      ∧ ctx2 = { ctx with output0 := some ⟨out, input_tensor.data⟩ }
      ∧ (⟨removeAxes (normalizedAxes ctx.axes (input_tensor.shape.length + ctx.axes.length))
            out, input_tensor.data⟩ : Tensor) = input_tensor := by
  have e : input_tensor.shape.length + ctx.axes.length
      = ctx.axes.length + input_tensor.shape.length := Nat.add_comm _ _
  rw [e] at hr hnd ⊢
  obtain ⟨out, h1, _, h3⟩ :=
    PrepareCompute_valid_core ctx input_tensor.shape [] hsparse hr hnd
  have h4 := hout out h1
  cases hb : ctx.outputStorage out with
  | none => exact absurd hb h4
  | some buf =>
    refine ⟨out, _, h1, ?_, rfl, ?_⟩
    · simp only [Unsqueeze.Compute, hin, h1, OpKernelContext.Output, hb, CopyCpuTensor]
      simp
    · rw [h3]

/-- C8 (amended), on a dense input tensor of shape [2,3] with axes [0,-1]. -/
theorem Compute_copies_input_witness :
    ∃ out ctx2,
      PrepareCompute (denseContext [0, -1] ⟨[2, 3], [1, 2, 3, 4, 5, 6]⟩
          (fun s => some (List.replicate s.prod.toNat 0))) [2, 3] [] = .ok (Status.OK, out)
      ∧ Unsqueeze.Compute (denseContext [0, -1] ⟨[2, 3], [1, 2, 3, 4, 5, 6]⟩
          (fun s => some (List.replicate s.prod.toNat 0))) = .ok (Status.OK, ctx2)
      ∧ ctx2 = { denseContext [0, -1] ⟨[2, 3], [1, 2, 3, 4, 5, 6]⟩
          (fun s => some (List.replicate s.prod.toNat 0)) with
            output0 := some ⟨out, [1, 2, 3, 4, 5, 6]⟩ }
      ∧ (⟨removeAxes (normalizedAxes [0, -1] (2 + 2)) out, [1, 2, 3, 4, 5, 6]⟩ : Tensor)
          = ⟨[2, 3], [1, 2, 3, 4, 5, 6]⟩ :=
  Compute_copies_input (denseContext [0, -1] ⟨[2, 3], [1, 2, 3, 4, 5, 6]⟩
      (fun s => some (List.replicate s.prod.toNat 0))) ⟨[2, 3], [1, 2, 3, 4, 5, 6]⟩
    rfl (by decide) (by decide) (by decide) (fun _ _ => by simp [denseContext])

/-- C9: for the input shape [2,3] of a dense tensor, the input that
`Unsqueeze::Compute` hands over, `PrepareCompute` with axis list [0] returns
output shape [1,2,3] (on this list whatever the kind of input), with axis list
[0,3] returns output shape [1,2,3,1], and with axis list [0,4] (output rank 4,
so index 4 is invalid) fails with the out-of-range error, leaving `output_shape`
unassigned. -/
theorem PrepareCompute_example (inputIsSparse : Bool) (input0 output0 : Option Tensor)
    (outputStorage : TensorShape → Option (List Int)) (output_shape : TensorShape) :
    PrepareCompute ⟨[0], inputIsSparse, input0, outputStorage, output0⟩ [2, 3] output_shape
        = .ok (Status.OK, [1, 2, 3])
      ∧ PrepareCompute ⟨[0, 3], false, input0, outputStorage, output0⟩ [2, 3] output_shape
        = .ok (Status.OK, [1, 2, 3, 1])
      ∧ PrepareCompute ⟨[0, 4], false, input0, outputStorage, output0⟩ [2, 3] output_shape
        = .ok (outOfRangeAxis, output_shape) := by
  refine ⟨?_, rfl, rfl⟩
  cases inputIsSparse <;> rfl

end onnxruntime

/-! ## Auxiliary facts about the compaction model -/

namespace onnxruntime

namespace cuda

theorem countBefore_zero (l : List Bool) : countBefore l 0 = 0 := by
  simp [countBefore]

theorem countBefore_succ (l : List Bool) (i : Nat) :
    countBefore l (i + 1) = countBefore l i + (if l.getD i false = true then 1 else 0) := by
  induction l generalizing i with
  | nil => simp [countBefore]
  | cons b l ih =>
    cases i with
    | zero => cases b <;> simp [countBefore]
    | succ i =>
      have := ih i
      simp only [countBefore, List.take_succ_cons, List.count_cons, List.getD_cons_succ] at this ⊢
      omega

theorem countBefore_mono (l : List Bool) (i j : Nat) (h : i ≤ j) :
    countBefore l i ≤ countBefore l j := by
  induction j with
  | zero =>
    have : i = 0 := by omega
    rw [this]
  | succ j ih =>
    by_cases hij : i = j + 1
    · rw [hij]
    · have := ih (by omega)
      rw [countBefore_succ]
      omega

theorem countBefore_length (l : List Bool) (i : Nat) (h : l.length ≤ i) :
    countBefore l i = l.count true := by
  simp [countBefore, List.take_of_length_le h]

theorem inclusiveSumFrom_length (acc : Nat) (l : List Bool) :
    (inclusiveSumFrom acc l).length = l.length := by
  induction l generalizing acc with
  | nil => rfl
  | cons b l ih => simp [inclusiveSumFrom, ih]

theorem inclusiveSumFrom_getD (acc : Nat) (l : List Bool) (i : Nat) (h : i < l.length) :
    (inclusiveSumFrom acc l).getD i 0 = acc + countBefore l (i + 1) := by
  induction l generalizing acc i with
  | nil => simp at h
  | cons b l ih =>
    cases i with
    | zero => cases b <;> simp [inclusiveSumFrom, countBefore]
    | succ i =>
      have := ih (acc + (if b = true then 1 else 0)) i (by simpa using h)
      clear ih
      simp only [inclusiveSumFrom, List.getD_cons_succ, this]
      simp only [countBefore, List.take_succ_cons, List.count_cons]
      cases b <;> first | (simp; done) | (simp; omega)

theorem inclusiveSumFrom_getLastD (acc : Nat) (l : List Bool) (h : l ≠ []) :
    (inclusiveSumFrom acc l).getLastD 0 = acc + l.count true := by
  induction l generalizing acc with
  | nil => exact absurd rfl h
  | cons b l ih =>
    cases l with
    | nil => cases b <;> simp [inclusiveSumFrom]
    | cons c l =>
      have := ih (acc + (if b = true then 1 else 0)) (by simp)
      simp only [inclusiveSumFrom, List.getLastD_cons] at this ⊢
      rw [this]
      cases b <;> first | (simp; done) | (simp; omega)

/-- Entry `i` of the scan is the number of `true` flags in positions `[0, i]`. -/
theorem CompressInclusiveSum_getD (cond : List Bool) (i : Nat) (h : i < cond.length) :
    (CompressInclusiveSum cond cond.length).getD i 0 = countBefore cond (i + 1) := by
  rw [CompressInclusiveSum, List.take_length, inclusiveSumFrom_getD 0 cond i h, Nat.zero_add]

/-- The last entry of the scan (0 for an empty array) is the number of `true` flags. -/
theorem CompressInclusiveSum_getLastD (cond : List Bool) :
    (CompressInclusiveSum cond cond.length).getLastD 0 = cond.count true := by
  cases cond with
  | nil => rfl
  | cons b l =>
    simp only [CompressInclusiveSum, List.take_length]
    rw [inclusiveSumFrom_getLastD 0 _ (by simp)]
    simp

theorem countBefore_pos (cond : List Bool) (i : Nat) (hc : cond.getD i false = true) :
    1 ≤ countBefore cond (i + 1) := by
  rw [countBefore_succ, if_pos hc]
  omega

theorem countBefore_le (cond : List Bool) (i : Nat) : countBefore cond i ≤ cond.count true := by
  by_cases h : cond.length ≤ i
  · rw [countBefore_length cond i h]
  · rw [← countBefore_length cond cond.length (le_refl _)]
    exact countBefore_mono cond i cond.length (by omega)

/-- Kept indices receive strictly increasing counts. -/
theorem countBefore_strict (cond : List Bool) (i j : Nat) (hij : i < j)
    (hj : cond.getD j false = true) : countBefore cond (i + 1) < countBefore cond (j + 1) := by
  have h1 := countBefore_mono cond (i + 1) j (by omega)
  rw [countBefore_succ cond j, if_pos hj]
  omega

/-- Every count from 1 to the total is the count of some kept index. -/
theorem countBefore_onto (cond : List Bool) (k : Nat) (hk : k < cond.count true) :
    ∃ i, i < cond.length ∧ cond.getD i false = true ∧ countBefore cond (i + 1) = k + 1 := by
  have key : ∀ n, k < countBefore cond n →
      ∃ i, i < n ∧ i < cond.length ∧ cond.getD i false = true
        ∧ countBefore cond (i + 1) = k + 1 := by
    intro n
    induction n with
    | zero => intro h; rw [countBefore_zero] at h; omega
    | succ n ih =>
      intro h
      by_cases hn : k < countBefore cond n
      · obtain ⟨i, h1, h2⟩ := ih hn
        exact ⟨i, by omega, h2⟩
      · rw [countBefore_succ] at h
        by_cases hc : cond.getD n false = true
        · rw [if_pos hc] at h
          have hlen : n < cond.length := by
            by_contra c
            rw [List.getD_eq_default _ _ (by omega)] at hc
            cases hc
          refine ⟨n, by omega, hlen, hc, ?_⟩
          rw [countBefore_succ, if_pos hc]
          omega
        · rw [if_neg hc] at h
          omega
  rw [← countBefore_length cond cond.length (le_refl _)] at hk
  obtain ⟨i, _, h2⟩ := key cond.length hk
  exact ⟨i, h2⟩

/-! ### Block writes -/

theorem blockWrite_length (B d : Nat) (vals : Nat → Nat) (out : List Nat) :
    ((List.range B).foldl (fun o j => o.set (d + j) (vals j)) out).length = out.length := by
  induction B with
  | zero => rfl
  | succ B ih => simp [List.range_succ, List.foldl_append, ih]

/-- The content of a buffer after a run of `B` bytes has been written at offset `d`. -/
theorem blockWrite_getElem? (B d : Nat) (vals : Nat → Nat) (out : List Nat) (x : Nat) :
    ((List.range B).foldl (fun o j => o.set (d + j) (vals j)) out)[x]?
      = if d ≤ x ∧ x < d + B ∧ x < out.length then some (vals (x - d)) else out[x]? := by
  induction B with
  | zero =>
    have : ¬ (d ≤ x ∧ x < d + 0 ∧ x < out.length) := by omega
    rw [if_neg this]
    rfl
  | succ B ih =>
    simp only [List.range_succ, List.foldl_append, List.foldl_cons, List.foldl_nil,
      List.getElem?_set, blockWrite_length, ih]
    by_cases hx : d + B = x
    · subst hx
      by_cases hl : d + B < out.length
      · simp [hl]
      · have : out[d + B]? = none := List.getElem?_eq_none (by omega)
        simp [hl, this]
    · simp only [hx, if_false]
      by_cases h1 : d ≤ x ∧ x < d + B ∧ x < out.length
      · have h2 : d ≤ x ∧ x < d + (B + 1) ∧ x < out.length := by omega
        rw [if_pos h1, if_pos h2]
      · have h2 : ¬ (d ≤ x ∧ x < d + (B + 1) ∧ x < out.length) := by omega
        rw [if_neg h1, if_neg h2]

theorem scatter_length {ι : Type} (B : Nat) (dest : ι → Nat) (vals : ι → Nat → Nat)
    (items : List ι) (out : List Nat) :
    (items.foldl (fun o it => (List.range B).foldl
      (fun o j => o.set (dest it + j) (vals it j)) o) out).length = out.length := by
  induction items generalizing out with
  | nil => rfl
  | cons it items ih => simp [List.foldl_cons, ih, blockWrite_length]

/-- A byte stays what it is when every later block write covering it writes the
same value. -/
theorem scatter_keeps {ι : Type} (B : Nat) (dest : ι → Nat) (vals : ι → Nat → Nat)
    (items : List ι) (out : List Nat) (x v : Nat) (hx : out[x]? = some v)
    (hsame : ∀ it ∈ items, dest it ≤ x → x < dest it + B → vals it (x - dest it) = v) :
    (items.foldl (fun o it => (List.range B).foldl
      (fun o j => o.set (dest it + j) (vals it j)) o) out)[x]? = some v := by
  induction items generalizing out with
  | nil => exact hx
  | cons it items ih =>
    rw [List.foldl_cons]
    apply ih
    · rw [blockWrite_getElem?]
      by_cases h : dest it ≤ x ∧ x < dest it + B ∧ x < out.length
      · rw [if_pos h, hsame it (List.mem_cons_self _ _) h.1 h.2.1]
      · rw [if_neg h, hx]
    · intro it2 h2
      exact hsame it2 (List.mem_cons_of_mem _ h2)

/-- After all work items have run, a byte covered by the block of one of them
holds what that item wrote, provided the items covering it agree on the value. -/
theorem scatter_writes {ι : Type} (B : Nat) (dest : ι → Nat) (vals : ι → Nat → Nat)
    (items : List ι) (out : List Nat) (x : Nat) (it : ι) (hit : it ∈ items)
    (h1 : dest it ≤ x) (h2 : x < dest it + B) (h3 : x < out.length)
    (hsame : ∀ it2 ∈ items, dest it2 ≤ x → x < dest it2 + B →
      vals it2 (x - dest it2) = vals it (x - dest it)) :
    (items.foldl (fun o it => (List.range B).foldl
      (fun o j => o.set (dest it + j) (vals it j)) o) out)[x]?
      = some (vals it (x - dest it)) := by
  induction items generalizing out with
  | nil => simp at hit
  | cons a items ih =>
    rw [List.foldl_cons]
    by_cases hc : dest a ≤ x ∧ x < dest a + B
    · apply scatter_keeps
      · rw [blockWrite_getElem?, if_pos ⟨hc.1, hc.2, h3⟩,
          hsame a (List.mem_cons_self _ _) hc.1 hc.2]
      · intro it2 h4
        exact hsame it2 (List.mem_cons_of_mem _ h4)
    · have hne : it ∈ items := by
        rcases List.mem_cons.mp hit with e | e
        · subst e
          exact absurd ⟨h1, h2⟩ hc
        · exact e
      apply ih _ hne
      · rw [blockWrite_length]; exact h3
      · intro it2 h4
        exact hsame it2 (List.mem_cons_of_mem _ h4)

/-! ### The scatter phase -/

theorem mem_scatterWorkItems (outer A valid : Nat) (cond : List Bool) (o i : Nat) :
    (o, i) ∈ scatterWorkItems outer A valid cond
      ↔ o < outer ∧ i < A ∧ i < valid ∧ cond.getD i false = true := by
  simp only [scatterWorkItems, List.mem_flatMap, List.mem_range, List.mem_map, List.mem_filter,
    Prod.mk.injEq, Bool.and_eq_true, decide_eq_true_eq]
  constructor
  · rintro ⟨o2, ho, i2, ⟨hi, hv, hc⟩, e1, e2⟩
    subst e1 e2
    exact ⟨ho, hi, hv, hc⟩
  · rintro ⟨ho, hi, hv, hc⟩
    exact ⟨o, ho, i, ⟨hi, hv, hc⟩, rfl, rfl⟩

theorem block_index_unique (B p q x : Nat) (h1 : p * B ≤ x) (h2 : x < p * B + B)
    (h3 : q * B ≤ x) (h4 : x < q * B + B) : p = q := by
  by_contra hne
  rcases Nat.lt_or_gt_of_ne hne with h | h
  · have := Nat.mul_le_mul_right B (Nat.succ_le_of_lt h)
    rw [Nat.succ_mul] at this
    omega
  · have := Nat.mul_le_mul_right B (Nat.succ_le_of_lt h)
    rw [Nat.succ_mul] at this
    omega

theorem mixed_radix_unique (C o c o2 c2 : Nat) (hc : c < C) (hc2 : c2 < C)
    (h : o * C + c = o2 * C + c2) : o = o2 ∧ c = c2 := by
  have ho : o = o2 := by
    by_contra hne
    rcases Nat.lt_or_gt_of_ne hne with h5 | h5
    · have := Nat.mul_le_mul_right C (Nat.succ_le_of_lt h5)
      rw [Nat.succ_mul] at this
      omega
    · have := Nat.mul_le_mul_right C (Nat.succ_le_of_lt h5)
      rw [Nat.succ_mul] at this
      omega
  subst ho
  exact ⟨rfl, by omega⟩

theorem block_in_bounds (L A B o i n : Nat) (ho : o < L) (hi : i < A) (hn : n < B) :
    (o * A + i) * B + n < L * A * B := by
  have h1 : o * A + i + 1 ≤ L * A := by
    have := Nat.mul_le_mul_right A (Nat.succ_le_of_lt ho)
    rw [Nat.succ_mul] at this
    omega
  have h2 := Nat.mul_le_mul_right B h1
  rw [Nat.add_mul, Nat.one_mul] at h2
  omega

theorem sliceBlock_getElem? (data : List Nat) (B A o p n : Nat) :
    (sliceBlock data B A o p)[n]? = if n < B then data[(o * A + p) * B + n]? else none := by
  simp only [sliceBlock, List.getElem?_take, List.getElem?_drop]

/-- The block written for a kept index holds the input block of that index. -/
theorem CompressImpl_block (E L A R : Nat) (cond : List Bool) (input_data output_data : List Nat)
    (hA : cond.length = A)
    (hin : input_data.length = L * A * (E * R))
    (hout : output_data.length = L * cond.count true * (E * R))
    (o i : Nat) (ho : o < L) (hi : i < A) (hc : cond.getD i false = true) :
    sliceBlock (CompressImpl E A R A (cond.count true) (CompressInclusiveSum cond A) cond
        input_data output_data (L * A * R)).2 (E * R) (cond.count true) o
        ((CompressInclusiveSum cond A).getD i 0 - 1)
      = sliceBlock input_data (E * R) A o i := by
  subst hA
  by_cases hB : E * R = 0
  · simp [sliceBlock, hB]
  have hR : 0 < R := by
    rcases Nat.eq_zero_or_pos R with h | h
    · rw [h] at hB; simp at hB
    · exact h
  have houter : L * cond.length * R / (cond.length * R) = L := by
    rw [Nat.mul_assoc]
    exact Nat.mul_div_cancel _ (Nat.mul_pos (by omega) hR)
  have hcum : ∀ k, k < cond.length →
      (CompressInclusiveSum cond cond.length).getD k 0 = countBefore cond (k + 1) :=
    fun k hk => CompressInclusiveSum_getD cond k hk
  apply List.ext_getElem?
  intro n
  rw [sliceBlock_getElem?, sliceBlock_getElem?]
  by_cases hn : n < E * R
  · rw [if_pos hn, if_pos hn]
    have hsrc := block_in_bounds L cond.length (E * R) o i n ho hi hn
    have hci : countBefore cond (i + 1) - 1 < cond.count true := by
      have := countBefore_pos cond i hc
      have := countBefore_le cond (i + 1)
      omega
    have hdst := block_in_bounds L (cond.count true) (E * R) o (countBefore cond (i + 1) - 1) n
      ho hci hn
    rw [List.getElem?_eq_getElem (by omega : (o * cond.length + i) * (E * R) + n < input_data.length)]
    have key := scatter_writes (E * R)
      (fun it : Nat × Nat => (it.1 * cond.count true
        + ((CompressInclusiveSum cond cond.length).getD it.2 0 - 1)) * (E * R))
      (fun it j => input_data.getD ((it.1 * cond.length + it.2) * (E * R) + j) 0)
      (scatterWorkItems (L * cond.length * R / (cond.length * R)) cond.length cond.length cond)
      output_data
      ((o * cond.count true + ((CompressInclusiveSum cond cond.length).getD i 0 - 1)) * (E * R) + n)
      (o, i)
      (by rw [mem_scatterWorkItems, houter]; exact ⟨ho, hi, hi, hc⟩)
      (by simp)
      (by simp; omega)
      (by rw [hcum i hi]; omega)
      (by
        rintro ⟨o2, i2⟩ hmem h1 h2
        rw [mem_scatterWorkItems, houter] at hmem
        obtain ⟨ho2, hi2, _, hc2⟩ := hmem
        simp only at h1 h2 ⊢
        rw [hcum i hi] at h1 h2 ⊢
        rw [hcum i2 hi2] at h1 h2 ⊢
        have hci2 : countBefore cond (i2 + 1) - 1 < cond.count true := by
          have := countBefore_pos cond i2 hc2
          have := countBefore_le cond (i2 + 1)
          omega
        have hp := block_index_unique (E * R)
          (o2 * cond.count true + (countBefore cond (i2 + 1) - 1))
          (o * cond.count true + (countBefore cond (i + 1) - 1)) _ h1 h2
          (by omega) (by omega)
        obtain ⟨e1, e2⟩ := mixed_radix_unique _ _ _ _ _ hci2 hci hp
        subst e1
        have e3 : i2 = i := by
          have p1 := countBefore_pos cond i hc
          have p2 := countBefore_pos cond i2 hc2
          by_contra hne
          rcases Nat.lt_or_gt_of_ne hne with h | h
          · have := countBefore_strict cond i2 i h hc
            omega
          · have := countBefore_strict cond i i2 h hc2
            omega
        subst e3
        rfl)
    have hform : (CompressImpl E cond.length R cond.length (cond.count true)
          (CompressInclusiveSum cond cond.length) cond input_data output_data
          (L * cond.length * R)).2
        = (scatterWorkItems (L * cond.length * R / (cond.length * R)) cond.length cond.length
            cond).foldl
          (fun o it => (List.range (E * R)).foldl
            (fun o j => o.set
              ((it.1 * cond.count true
                + ((CompressInclusiveSum cond cond.length).getD it.2 0 - 1)) * (E * R) + j)
              (input_data.getD ((it.1 * cond.length + it.2) * (E * R) + j) 0)) o)
          output_data := rfl
    rw [hform, key]
    simp only [Nat.add_sub_cancel_left]
    rw [List.getD_eq_getElem?_getD, List.getElem?_eq_getElem (by omega)]
    rfl
  · rw [if_neg hn, if_neg hn]

theorem set_append_length (pre post : List Nat) (a v : Nat) :
    (pre ++ a :: post).set pre.length v = pre ++ v :: post := by
  induction pre with
  | nil => rfl
  | cons p pre ih => simp [ih]

theorem prod_around_axis (pre post : List Nat) (a : Nat) :
    (pre ++ a :: post).prod = pre.prod * a * post.prod := by
  rw [List.prod_append, List.prod_cons, Nat.mul_assoc]

end cuda

end onnxruntime

/-! ## Properties of compaction -/

namespace onnxruntime

namespace cuda

/-- C10: for an input tensor of shape `pre ++ [A] ++ post` with `element_bytes`
bytes per element, compacted along the axis of length `A` under a condition
array of length `A`: the output shape is `pre ++ [number of true entries] ++ post`
(the axis length is the last scan entry, the other axes are unchanged);
`CompressImpl` returns OK; for every outer repetition `o` and every index `i`
with `condition[i]` true, the output SliceBlock at axis position
`CumulativeCount[i] - 1` (with `CumulativeCount[i]` at least 1 and at most the
number of true entries) equals
the input SliceBlock at axis position `i`; these positions increase with `i`,
and every output position below the number of true entries is the position of
some kept index: the output holds exactly the selected slices in their original
relative order. -/
theorem Compress_contract (element_bytes : Nat) (pre post : List Nat) (A : Nat)
    (condition : List Bool) (input_data output_data : List Nat)
    (hcond : condition.length = A)
    (hin : input_data.length = (pre ++ A :: post).prod * element_bytes)
    (hout : output_data.length
      = (compressOutputShape (pre ++ A :: post) pre.length
          (CompressInclusiveSum condition A)).prod * element_bytes) :
    compressOutputShape (pre ++ A :: post) pre.length (CompressInclusiveSum condition A)
        = pre ++ condition.count true :: post
      ∧ ∃ out,
        CompressImpl element_bytes A post.prod A
            ((CompressInclusiveSum condition A).getLastD 0)
            (CompressInclusiveSum condition A) condition input_data output_data
            (pre ++ A :: post).prod = (Status.OK, out)
        ∧ out.length = output_data.length
        ∧ (∀ o i, o < pre.prod → i < A → condition.getD i false = true →
            1 ≤ (CompressInclusiveSum condition A).getD i 0
              ∧ (CompressInclusiveSum condition A).getD i 0 - 1 < condition.count true
              ∧ sliceBlock out (element_bytes * post.prod) (condition.count true) o
                  ((CompressInclusiveSum condition A).getD i 0 - 1)
                = sliceBlock input_data (element_bytes * post.prod) A o i)
        ∧ (∀ i j, i < j → j < A → condition.getD i false = true →
            condition.getD j false = true →
            (CompressInclusiveSum condition A).getD i 0 - 1
              < (CompressInclusiveSum condition A).getD j 0 - 1)
        ∧ (∀ k, k < condition.count true →
            ∃ i, i < A ∧ condition.getD i false = true
              ∧ (CompressInclusiveSum condition A).getD i 0 - 1 = k) := by
  subst hcond
  have hshape : compressOutputShape (pre ++ condition.length :: post) pre.length
      (CompressInclusiveSum condition condition.length)
        = pre ++ condition.count true :: post := by
    rw [compressOutputShape, CompressInclusiveSum_getLastD, set_append_length]
  refine ⟨hshape, _, rfl, ?_, ?_, ?_, ?_⟩
  · exact scatter_length _ _ _ _ _
  · intro o i ho hi hc
    rw [CompressInclusiveSum_getD condition i hi]
    refine ⟨countBefore_pos condition i hc, ?_, ?_⟩
    · have := countBefore_pos condition i hc
      have := countBefore_le condition (i + 1)
      omega
    · have h1 : input_data.length = pre.prod * condition.length * (element_bytes * post.prod) := by
        rw [hin, prod_around_axis]; ring
      have h2 : output_data.length
          = pre.prod * condition.count true * (element_bytes * post.prod) := by
        rw [hout, hshape, prod_around_axis]; ring
      have := CompressImpl_block element_bytes pre.prod condition.length post.prod condition
        input_data output_data rfl h1 h2 o i ho hi hc
      rw [CompressInclusiveSum_getD condition i hi] at this
      rw [CompressInclusiveSum_getLastD, prod_around_axis]
      exact this
  · intro i j hij hj hci hcj
    rw [CompressInclusiveSum_getD condition i (by omega), CompressInclusiveSum_getD condition j hj]
    have := countBefore_pos condition i hci
    have := countBefore_strict condition i j hij hcj
    omega
  · intro k hk
    obtain ⟨i, h1, h2, h3⟩ := countBefore_onto condition k hk
    refine ⟨i, h1, h2, ?_⟩
    rw [CompressInclusiveSum_getD condition i h1, h3]
    rfl

/-- C10, on an input of shape [2,5,1] with two bytes per element and the
condition [true,false,true,true,false]: the output shape is [2,3,1] and each
outer repetition of the output holds input slices 0, 2, 3 in that order. -/
theorem Compress_contract_witness :
    compressOutputShape ([2] ++ 5 :: [1]) [2].length
        (CompressInclusiveSum [true, false, true, true, false] 5) = [2] ++ 3 :: [1]
      ∧ CompressImpl 2 5 1 5 3 (CompressInclusiveSum [true, false, true, true, false] 5)
          [true, false, true, true, false]
          [10, 11, 20, 21, 30, 31, 40, 41, 50, 51, 60, 61, 70, 71, 80, 81, 90, 91, 100, 101]
          (List.replicate 12 0) 10
        = (Status.OK, [10, 11, 30, 31, 40, 41, 60, 61, 80, 81, 90, 91]) :=
  ⟨(Compress_contract 2 [2] [1] 5 [true, false, true, true, false]
      [10, 11, 20, 21, 30, 31, 40, 41, 50, 51, 60, 61, 70, 71, 80, 81, 90, 91, 100, 101]
      (List.replicate 12 0) rfl (by decide) (by decide)).1,
    by decide⟩

/-- C11: for every condition array of length n, the sequence produced by
`CompressInclusiveSum` has length n; its entry i is the number of true flags in
positions [0, i]; it is non-decreasing; its last entry (0 when n = 0) is the total
number of true flags; for [true,false,true,true,false] it is [1,1,2,3,3]. -/
theorem CompressInclusiveSum_scan (condition : List Bool) :
    (CompressInclusiveSum condition condition.length).length = condition.length
      ∧ (∀ i, i < condition.length →
          (CompressInclusiveSum condition condition.length)[i]?
            = some ((condition.take (i + 1)).count true))
      ∧ (∀ i j, i ≤ j → j < condition.length →
          (CompressInclusiveSum condition condition.length).getD i 0
            ≤ (CompressInclusiveSum condition condition.length).getD j 0)
      ∧ (CompressInclusiveSum condition condition.length).getLastD 0 = condition.count true
      ∧ (condition ≠ [] →
          (CompressInclusiveSum condition condition.length).getLast?
            = some (condition.count true))
      ∧ CompressInclusiveSum [true, false, true, true, false] 5 = [1, 1, 2, 3, 3] := by
  have hlen : (CompressInclusiveSum condition condition.length).length = condition.length := by
    rw [CompressInclusiveSum, List.take_length, inclusiveSumFrom_length]
  have hget : ∀ i, i < condition.length →
      (CompressInclusiveSum condition condition.length)[i]?
        = some ((condition.take (i + 1)).count true) := by
    intro i hi
    have h1 := CompressInclusiveSum_getD condition i hi
    rw [List.getD_eq_getElem?_getD, List.getElem?_eq_getElem (by rw [hlen]; exact hi)] at h1
    rw [List.getElem?_eq_getElem (by rw [hlen]; exact hi)]
    simp only [Option.getD_some] at h1
    rw [h1]
    rfl
  refine ⟨hlen, hget, ?_, CompressInclusiveSum_getLastD condition, ?_, by decide⟩
  · intro i j hij hj
    rw [CompressInclusiveSum_getD condition i (by omega), CompressInclusiveSum_getD condition j hj]
    exact countBefore_mono condition (i + 1) (j + 1) (by omega)
  · intro hne
    have hpos : 0 < condition.length := List.length_pos.mpr hne
    rw [List.getLast?_eq_getElem?, hlen, hget (condition.length - 1) (by omega)]
    have e : condition.length - 1 + 1 = condition.length := by omega
    rw [e, List.take_length]

/-- C11, on the condition array [true,true,false]: the entries at 0 and 2 are
ordered and the last entry is the number of true flags, 2. -/
theorem CompressInclusiveSum_scan_witness :
    (CompressInclusiveSum [true, true, false] [true, true, false].length).getD 0 0
        ≤ (CompressInclusiveSum [true, true, false] [true, true, false].length).getD 2 0
      ∧ (CompressInclusiveSum [true, true, false] [true, true, false].length).getLast?
        = some ([true, true, false].count true) :=
  ⟨(CompressInclusiveSum_scan [true, true, false]).2.2.1 0 2 (by decide) (by decide),
    (CompressInclusiveSum_scan [true, true, false]).2.2.2.2.1 (by decide)⟩

/-- The destination map of the work items: each item is listed once, lands in
[0, number of true flags), no two items share a destination, every destination
is reached, and the byte ranges of two different items share no byte. -/
theorem scatterWorkItems_destinations (outer : Nat) (condition : List Bool) :
    (scatterWorkItems outer condition.length condition.length condition).Nodup
      ∧ (∀ it ∈ scatterWorkItems outer condition.length condition.length condition,
          it.1 < outer ∧ condition.getD it.2 false = true
            ∧ 1 ≤ (CompressInclusiveSum condition condition.length).getD it.2 0
            ∧ (CompressInclusiveSum condition condition.length).getD it.2 0 - 1
                < condition.count true)
      ∧ (∀ it1 ∈ scatterWorkItems outer condition.length condition.length condition,
          ∀ it2 ∈ scatterWorkItems outer condition.length condition.length condition,
          (it1.1, (CompressInclusiveSum condition condition.length).getD it1.2 0 - 1)
              = (it2.1, (CompressInclusiveSum condition condition.length).getD it2.2 0 - 1) →
            it1 = it2)
      ∧ (∀ o k, o < outer → k < condition.count true →
          ∃ it, it ∈ scatterWorkItems outer condition.length condition.length condition
            ∧ (it.1, (CompressInclusiveSum condition condition.length).getD it.2 0 - 1) = (o, k)
            ∧ ∀ it2 ∈ scatterWorkItems outer condition.length condition.length condition,
                (it2.1, (CompressInclusiveSum condition condition.length).getD it2.2 0 - 1)
                  = (o, k) → it2 = it)
      ∧ (∀ (blockBytes x : Nat),
          ∀ it1 ∈ scatterWorkItems outer condition.length condition.length condition,
          ∀ it2 ∈ scatterWorkItems outer condition.length condition.length condition,
          (it1.1 * condition.count true
              + ((CompressInclusiveSum condition condition.length).getD it1.2 0 - 1))
              * blockBytes ≤ x →
          x < (it1.1 * condition.count true
              + ((CompressInclusiveSum condition condition.length).getD it1.2 0 - 1))
              * blockBytes + blockBytes →
          (it2.1 * condition.count true
              + ((CompressInclusiveSum condition condition.length).getD it2.2 0 - 1))
              * blockBytes ≤ x →
          x < (it2.1 * condition.count true
              + ((CompressInclusiveSum condition condition.length).getD it2.2 0 - 1))
              * blockBytes + blockBytes →
          it1 = it2) := by
  have hmem : ∀ it : Nat × Nat,
      it ∈ scatterWorkItems outer condition.length condition.length condition →
      it.1 < outer ∧ it.2 < condition.length ∧ condition.getD it.2 false = true
        ∧ (CompressInclusiveSum condition condition.length).getD it.2 0
            = countBefore condition (it.2 + 1)
        ∧ 1 ≤ countBefore condition (it.2 + 1)
        ∧ countBefore condition (it.2 + 1) - 1 < condition.count true := by
    rintro ⟨o, i⟩ h
    rw [mem_scatterWorkItems] at h
    obtain ⟨h1, h2, _, h3⟩ := h
    have p1 := countBefore_pos condition i h3
    have p2 := countBefore_le condition (i + 1)
    exact ⟨h1, h2, h3, CompressInclusiveSum_getD condition i h2, p1,
      show countBefore condition (i + 1) - 1 < condition.count true by omega⟩
  have hinj : ∀ it1 ∈ scatterWorkItems outer condition.length condition.length condition,
      ∀ it2 ∈ scatterWorkItems outer condition.length condition.length condition,
      it1.1 = it2.1 →
      (CompressInclusiveSum condition condition.length).getD it1.2 0 - 1
        = (CompressInclusiveSum condition condition.length).getD it2.2 0 - 1 → it1 = it2 := by
    rintro ⟨o1, i1⟩ h1 ⟨o2, i2⟩ h2 e1 e2
    obtain ⟨_, _, c1, g1, p1, _⟩ := hmem _ h1
    obtain ⟨_, _, c2, g2, p2, _⟩ := hmem _ h2
    simp only at e1 e2 c1 c2 g1 g2 p1 p2
    rw [g1, g2] at e2
    have : i1 = i2 := by
      by_contra hne
      rcases Nat.lt_or_gt_of_ne hne with h | h
      · have := countBefore_strict condition i1 i2 h c2
        omega
      · have := countBefore_strict condition i2 i1 h c1
        omega
    rw [e1, this]
  refine ⟨?_, ?_, ?_, ?_, ?_⟩
  · unfold scatterWorkItems
    rw [List.nodup_flatMap]
    constructor
    · intro o _
      exact ((List.nodup_range _).filter _).map (fun a b h => (Prod.mk.inj h).2)
    · refine (List.nodup_range outer).imp ?_
      intro o1 o2 hne
      simp only [Function.onFun]
      intro it h1 h2
      simp only [List.mem_map] at h1 h2
      obtain ⟨_, _, e1⟩ := h1
      obtain ⟨_, _, e2⟩ := h2
      rw [← e2] at e1
      exact hne (Prod.mk.inj e1).1
  · intro it h
    obtain ⟨h1, _, h3, g, p1, p2⟩ := hmem it h
    rw [g]
    exact ⟨h1, h3, p1, p2⟩
  · intro it1 h1 it2 h2 e
    exact hinj it1 h1 it2 h2 (Prod.mk.inj e).1 (Prod.mk.inj e).2
  · intro o k ho hk
    obtain ⟨i, hi, hc, hcnt⟩ := countBefore_onto condition k hk
    have hin : (o, i) ∈ scatterWorkItems outer condition.length condition.length condition := by
      rw [mem_scatterWorkItems]
      exact ⟨ho, hi, hi, hc⟩
    have hd : (CompressInclusiveSum condition condition.length).getD i 0 - 1 = k := by
      rw [CompressInclusiveSum_getD condition i hi, hcnt]
      rfl
    refine ⟨(o, i), hin, by simp only [hd], ?_⟩
    intro it2 h2 e
    apply hinj it2 h2 (o, i) hin (Prod.mk.inj e).1
    rw [(Prod.mk.inj e).2, hd]
  · intro B x it1 h1 it2 h2 a1 a2 b1 b2
    obtain ⟨_, _, _, g1, _, q1⟩ := hmem it1 h1
    obtain ⟨_, _, _, g2, _, q2⟩ := hmem it2 h2
    have hp := block_index_unique B _ _ x a1 a2 b1 b2
    rw [g1, g2] at hp
    obtain ⟨e1, e2⟩ := mixed_radix_unique _ _ _ _ _ q1 q2 hp
    apply hinj it1 h1 it2 h2 e1
    rw [g1, g2, e2]

/-- What one work item does to a buffer: it writes its input block over the byte
range of its destination block and leaves every other byte as it was. -/
theorem copySliceBlock_getElem? (B A C : Nat) (cum input buf : List Nat) (it : Nat × Nat)
    (x : Nat) :
    (copySliceBlock B A C cum input buf it)[x]?
      = if (it.1 * C + (cum.getD it.2 0 - 1)) * B ≤ x
            ∧ x < (it.1 * C + (cum.getD it.2 0 - 1)) * B + B ∧ x < buf.length
        then some (input.getD
          ((it.1 * A + it.2) * B + (x - (it.1 * C + (cum.getD it.2 0 - 1)) * B)) 0)
        else buf[x]? :=
  blockWrite_getElem? B _ (fun j => input.getD ((it.1 * A + it.2) * B + j) 0) buf x

/-- Every byte of an output of `outer * count * B` bytes lies in the destination
block of some work item. -/
theorem scatter_block_exists (outer B : Nat) (condition : List Bool) (x : Nat)
    (hx : x < outer * condition.count true * B) :
    ∃ it, it ∈ scatterWorkItems outer condition.length condition.length condition
      ∧ (it.1 * condition.count true
          + ((CompressInclusiveSum condition condition.length).getD it.2 0 - 1)) * B ≤ x
      ∧ x < (it.1 * condition.count true
          + ((CompressInclusiveSum condition condition.length).getD it.2 0 - 1)) * B + B := by
  have hB : 0 < B := by
    rcases Nat.eq_zero_or_pos B with h | h
    · rw [h] at hx; simp at hx
    · exact h
  have hC : 0 < condition.count true := by
    rcases Nat.eq_zero_or_pos (condition.count true) with h | h
    · rw [h] at hx; simp at hx
    · exact h
  have hp : x / B < outer * condition.count true := (Nat.div_lt_iff_lt_mul hB).mpr hx
  have ho : x / B / condition.count true < outer :=
    Nat.div_lt_of_lt_mul (by rw [Nat.mul_comm]; exact hp)
  have hk : x / B % condition.count true < condition.count true := Nat.mod_lt _ hC
  obtain ⟨i, hi, hc, hcnt⟩ := countBefore_onto condition _ hk
  have hd : (CompressInclusiveSum condition condition.length).getD i 0 - 1
      = x / B % condition.count true := by
    rw [CompressInclusiveSum_getD condition i hi, hcnt]
    rfl
  have hpe : x / B / condition.count true * condition.count true
      + x / B % condition.count true = x / B := by
    rw [Nat.mul_comm]
    exact Nat.div_add_mod _ _
  refine ⟨(x / B / condition.count true, i), ?_, ?_, ?_⟩
  · rw [mem_scatterWorkItems]
    exact ⟨ho, hi, hi, hc⟩
  · simp only [hd, hpe]
    exact Nat.div_mul_le_self x B
  · simp only [hd, hpe]
    exact Nat.lt_div_mul_add hB

/-- In whatever order the work items run, a byte in the destination block of a
work item ends up holding the byte that item copies there. -/
theorem scatter_order_getElem? (outer B : Nat) (condition : List Bool)
    (input_data output_data : List Nat) (order : List (Nat × Nat))
    (horder : order.Perm (scatterWorkItems outer condition.length condition.length condition))
    (x : Nat) (hx : x < output_data.length) (it : Nat × Nat)
    (hit : it ∈ scatterWorkItems outer condition.length condition.length condition)
    (h1 : (it.1 * condition.count true
        + ((CompressInclusiveSum condition condition.length).getD it.2 0 - 1)) * B ≤ x)
    (h2 : x < (it.1 * condition.count true
        + ((CompressInclusiveSum condition condition.length).getD it.2 0 - 1)) * B + B) :
    (order.foldl (copySliceBlock B condition.length (condition.count true)
        (CompressInclusiveSum condition condition.length) input_data) output_data)[x]?
      = some (input_data.getD ((it.1 * condition.length + it.2) * B
          + (x - (it.1 * condition.count true
              + ((CompressInclusiveSum condition condition.length).getD it.2 0 - 1)) * B)) 0) := by
  have key := scatter_writes B
    (fun it : Nat × Nat => (it.1 * condition.count true
      + ((CompressInclusiveSum condition condition.length).getD it.2 0 - 1)) * B)
    (fun it j => input_data.getD ((it.1 * condition.length + it.2) * B + j) 0)
    order output_data x it (horder.mem_iff.mpr hit) h1 h2 hx
    (by
      intro it2 hit2 a1 a2
      have e := (scatterWorkItems_destinations outer condition).2.2.2.2 B x it2
        (horder.mem_iff.mp hit2) it hit a1 a2 h1 h2
      rw [e])
  exact key

/-- C12: for every condition array, number of outer repetitions, block size and
execution order of the work items of the scatter phase: the work items are the
pairs (outer repetition, i) with condition[i] true, each listed once; the
destination map (outer repetition, i) -> (outer repetition, CumulativeCount[i]-1)
is injective on them, lands in the positions [0, number of true flags) and
reaches each such position of each outer repetition from exactly one work item;
the writer `copySliceBlock` of a work item changes only the bytes of its own
destination block, where it puts its input block; every byte of the output lies
in the destination block of exactly one work item and holds, after all work
items have run in the given order, the byte that item copies; hence the output
of `CompressImpl` is the same for every execution order. -/
theorem scatter_each_slot_written_once (element_bytes axis_right_stride outer : Nat)
    (condition : List Bool) (input_data output_data : List Nat) (order : List (Nat × Nat))
    (hout : output_data.length
      = outer * condition.count true * (element_bytes * axis_right_stride))
    (horder : order.Perm
      (scatterWorkItems outer condition.length condition.length condition)) :
    (scatterWorkItems outer condition.length condition.length condition).Nodup
      ∧ (∀ it ∈ scatterWorkItems outer condition.length condition.length condition,
          it.1 < outer ∧ condition.getD it.2 false = true
            ∧ 1 ≤ (CompressInclusiveSum condition condition.length).getD it.2 0
            ∧ (CompressInclusiveSum condition condition.length).getD it.2 0 - 1
                < condition.count true)
      ∧ (∀ it1 ∈ scatterWorkItems outer condition.length condition.length condition,
          ∀ it2 ∈ scatterWorkItems outer condition.length condition.length condition,
          (it1.1, (CompressInclusiveSum condition condition.length).getD it1.2 0 - 1)
              = (it2.1, (CompressInclusiveSum condition condition.length).getD it2.2 0 - 1) →
            it1 = it2)
      ∧ (∀ o k, o < outer → k < condition.count true →
          ∃ it, it ∈ scatterWorkItems outer condition.length condition.length condition
            ∧ (it.1, (CompressInclusiveSum condition condition.length).getD it.2 0 - 1) = (o, k)
            ∧ ∀ it2 ∈ scatterWorkItems outer condition.length condition.length condition,
                (it2.1, (CompressInclusiveSum condition condition.length).getD it2.2 0 - 1)
                  = (o, k) → it2 = it)
      ∧ (∀ it ∈ scatterWorkItems outer condition.length condition.length condition,
          ∀ (buf : List Nat) (x : Nat), buf.length = output_data.length →
            (copySliceBlock (element_bytes * axis_right_stride) condition.length
                (condition.count true) (CompressInclusiveSum condition condition.length)
                input_data buf it)[x]?
              = if (it.1 * condition.count true
                      + ((CompressInclusiveSum condition condition.length).getD it.2 0 - 1))
                      * (element_bytes * axis_right_stride) ≤ x
                    ∧ x < (it.1 * condition.count true
                      + ((CompressInclusiveSum condition condition.length).getD it.2 0 - 1))
                      * (element_bytes * axis_right_stride)
                      + element_bytes * axis_right_stride
                then some (input_data.getD
                  ((it.1 * condition.length + it.2) * (element_bytes * axis_right_stride)
                    + (x - (it.1 * condition.count true
                      + ((CompressInclusiveSum condition condition.length).getD it.2 0 - 1))
                      * (element_bytes * axis_right_stride))) 0)
                else buf[x]?)
      ∧ (∀ x, x < output_data.length →
          ∃ it, it ∈ scatterWorkItems outer condition.length condition.length condition
            ∧ ((it.1 * condition.count true
                  + ((CompressInclusiveSum condition condition.length).getD it.2 0 - 1))
                  * (element_bytes * axis_right_stride) ≤ x
                ∧ x < (it.1 * condition.count true
                  + ((CompressInclusiveSum condition condition.length).getD it.2 0 - 1))
                  * (element_bytes * axis_right_stride)
                  + element_bytes * axis_right_stride)
            ∧ (∀ it2 ∈ scatterWorkItems outer condition.length condition.length condition,
                (it2.1 * condition.count true
                  + ((CompressInclusiveSum condition condition.length).getD it2.2 0 - 1))
                  * (element_bytes * axis_right_stride) ≤ x →
                x < (it2.1 * condition.count true
                  + ((CompressInclusiveSum condition condition.length).getD it2.2 0 - 1))
                  * (element_bytes * axis_right_stride)
                  + element_bytes * axis_right_stride →
                it2 = it)
            ∧ (order.foldl (copySliceBlock (element_bytes * axis_right_stride)
                  condition.length (condition.count true)
                  (CompressInclusiveSum condition condition.length) input_data)
                output_data)[x]?
              = some (input_data.getD
                  ((it.1 * condition.length + it.2) * (element_bytes * axis_right_stride)
                    + (x - (it.1 * condition.count true
                      + ((CompressInclusiveSum condition condition.length).getD it.2 0 - 1))
                      * (element_bytes * axis_right_stride))) 0))
      ∧ (CompressImpl element_bytes condition.length axis_right_stride condition.length
            (condition.count true) (CompressInclusiveSum condition condition.length)
            condition input_data output_data
            (outer * condition.length * axis_right_stride)).2
          = order.foldl (copySliceBlock (element_bytes * axis_right_stride)
              condition.length (condition.count true)
              (CompressInclusiveSum condition condition.length) input_data) output_data := by
  obtain ⟨d1, d2, d3, d4, d5⟩ := scatterWorkItems_destinations outer condition
  have hbyte : ∀ x, x < output_data.length →
      ∃ it, it ∈ scatterWorkItems outer condition.length condition.length condition
        ∧ (it.1 * condition.count true
            + ((CompressInclusiveSum condition condition.length).getD it.2 0 - 1))
            * (element_bytes * axis_right_stride) ≤ x
        ∧ x < (it.1 * condition.count true
            + ((CompressInclusiveSum condition condition.length).getD it.2 0 - 1))
            * (element_bytes * axis_right_stride) + element_bytes * axis_right_stride :=
    fun x hx => scatter_block_exists outer _ condition x (by rw [← hout]; exact hx)
  refine ⟨d1, d2, d3, d4, ?_, ?_, ?_⟩
  · intro it hit buf x hbuf
    rw [copySliceBlock_getElem?]
    obtain ⟨ho, _, _, hc⟩ := d2 it hit
    by_cases hr : (it.1 * condition.count true
          + ((CompressInclusiveSum condition condition.length).getD it.2 0 - 1))
          * (element_bytes * axis_right_stride) ≤ x
        ∧ x < (it.1 * condition.count true
          + ((CompressInclusiveSum condition condition.length).getD it.2 0 - 1))
          * (element_bytes * axis_right_stride) + element_bytes * axis_right_stride
    · have hin := block_in_bounds outer (condition.count true)
        (element_bytes * axis_right_stride) it.1
        ((CompressInclusiveSum condition condition.length).getD it.2 0 - 1)
        (x - (it.1 * condition.count true
          + ((CompressInclusiveSum condition condition.length).getD it.2 0 - 1))
          * (element_bytes * axis_right_stride)) ho hc (by omega)
      have hxl : x < buf.length := by rw [hbuf, hout]; omega
      rw [if_pos ⟨hr.1, hr.2, hxl⟩, if_pos hr]
    · have hr2 : ¬ ((it.1 * condition.count true
            + ((CompressInclusiveSum condition condition.length).getD it.2 0 - 1))
            * (element_bytes * axis_right_stride) ≤ x
          ∧ x < (it.1 * condition.count true
            + ((CompressInclusiveSum condition condition.length).getD it.2 0 - 1))
            * (element_bytes * axis_right_stride) + element_bytes * axis_right_stride
          ∧ x < buf.length) := fun c => hr ⟨c.1, c.2.1⟩
      rw [if_neg hr2, if_neg hr]
  · intro x hx
    obtain ⟨it, hit, h1, h2⟩ := hbyte x hx
    refine ⟨it, hit, ⟨h1, h2⟩, ?_, ?_⟩
    · intro it2 hit2 a1 a2
      exact d5 _ x it2 hit2 it hit a1 a2 h1 h2
    · exact scatter_order_getElem? outer _ condition input_data output_data order horder x hx
        it hit h1 h2
  · apply List.ext_getElem?
    intro x
    by_cases hx : x < output_data.length
    · obtain ⟨it, hit, h1, h2⟩ := hbyte x hx
      have hpos : 0 < condition.length * axis_right_stride := by
        have hi : it.2 < condition.length := by
          have := (mem_scatterWorkItems outer condition.length condition.length condition
            it.1 it.2).mp hit
          exact this.2.1
        have hR : 0 < axis_right_stride := by
          rcases Nat.eq_zero_or_pos axis_right_stride with h | h
          · rw [h] at h2; simp at h2
          · exact h
        exact Nat.mul_pos (by omega) hR
      have houter : outer * condition.length * axis_right_stride
          / (condition.length * axis_right_stride) = outer := by
        rw [Nat.mul_assoc]
        exact Nat.mul_div_cancel _ hpos
      have hform : (CompressImpl element_bytes condition.length axis_right_stride
            condition.length (condition.count true)
            (CompressInclusiveSum condition condition.length) condition input_data output_data
            (outer * condition.length * axis_right_stride)).2
          = (scatterWorkItems outer condition.length condition.length condition).foldl
              (copySliceBlock (element_bytes * axis_right_stride) condition.length
                (condition.count true) (CompressInclusiveSum condition condition.length)
                input_data) output_data := by
        simp only [CompressImpl, houter]
      rw [hform,
        scatter_order_getElem? outer _ condition input_data output_data _ (List.Perm.refl _) x hx
          it hit h1 h2,
        scatter_order_getElem? outer _ condition input_data output_data order horder x hx
          it hit h1 h2]
    · have l1 : (CompressImpl element_bytes condition.length axis_right_stride
            condition.length (condition.count true)
            (CompressInclusiveSum condition condition.length) condition input_data output_data
            (outer * condition.length * axis_right_stride)).2.length = output_data.length :=
        scatter_length _ _ _ _ _
      have l2 : (order.foldl (copySliceBlock (element_bytes * axis_right_stride)
            condition.length (condition.count true)
            (CompressInclusiveSum condition condition.length) input_data)
            output_data).length = output_data.length :=
        scatter_length _ _ _ _ _
      rw [List.getElem?_eq_none (by omega), List.getElem?_eq_none (by omega)]

/-- C12, on the condition array [true,false,true] with two outer repetitions
and blocks of two bytes, the work items run in the order (1,2), (0,0), (1,0),
(0,2): the output of `CompressImpl` is what that order produces, the kept
blocks of each outer repetition in their places. -/
theorem scatter_each_slot_written_once_witness :
    (CompressImpl 1 [true, false, true].length 2 [true, false, true].length
          ([true, false, true].count true)
          (CompressInclusiveSum [true, false, true] [true, false, true].length)
          [true, false, true] [1, 2, 3, 4, 5, 6, 7, 8, 9, 10, 11, 12] (List.replicate 8 0)
          (2 * [true, false, true].length * 2)).2
        = [(1, 2), (0, 0), (1, 0), (0, 2)].foldl
            (copySliceBlock (1 * 2) [true, false, true].length ([true, false, true].count true)
              (CompressInclusiveSum [true, false, true] [true, false, true].length)
              [1, 2, 3, 4, 5, 6, 7, 8, 9, 10, 11, 12]) (List.replicate 8 0)
      ∧ [(1, 2), (0, 0), (1, 0), (0, 2)].foldl
            (copySliceBlock (1 * 2) [true, false, true].length ([true, false, true].count true)
              (CompressInclusiveSum [true, false, true] [true, false, true].length)
              [1, 2, 3, 4, 5, 6, 7, 8, 9, 10, 11, 12]) (List.replicate 8 0)
        = [1, 2, 5, 6, 7, 8, 11, 12] :=
  ⟨(scatter_each_slot_written_once 1 2 2 [true, false, true]
      [1, 2, 3, 4, 5, 6, 7, 8, 9, 10, 11, 12] (List.replicate 8 0)
      [(1, 2), (0, 0), (1, 0), (0, 2)] (by decide) (by decide)).2.2.2.2.2.2,
    by decide⟩

end cuda

end onnxruntime

/-! ## Further properties of axis insertion -/

namespace onnxruntime

open UnsqueezeBase

/-- The unset slots of a marked array are its zero entries. -/
theorem marks_count_zero (S : List Int) (m i : Nat) :
    (marks S i m).count 0 = unmarked S i m := by
  induction m generalizing i with
  | zero => rfl
  | succ m ih =>
    by_cases h : (i : Int) ∈ S
    · simp [marks, unmarked, h, ih]
    · simp [marks, unmarked, h, ih]
      omega

/-- A completed axis loop on a marked array has seen only in-range axes,
pairwise distinct after normalization and distinct from the marked positions. -/
theorem axesLoop_ok_valid (n : Nat) (axes S D : List Int)
    (h : axesLoop axes (marks S 0 n) = .ok D) :
    (∀ a ∈ axes, 0 ≤ HandleNegativeAxis a n ∧ HandleNegativeAxis a n < n)
      ∧ (normalizedAxes axes n).Nodup
      ∧ ∀ a ∈ axes, ¬ HandleNegativeAxis a n ∈ S := by
  induction axes generalizing S with
  | nil => simp [normalizedAxes]
  | cons a rest ih =>
    by_cases hr : 0 ≤ HandleNegativeAxis a n ∧ HandleNegativeAxis a n < n
    · by_cases hS : HandleNegativeAxis a n ∈ S
      · rw [axesLoop_cons_duplicate S n a rest hr hS] at h
        cases h
      · rw [axesLoop_cons_fresh S n a rest hr hS] at h
        obtain ⟨i1, i2, i3⟩ := ih _ h
        refine ⟨?_, ?_, ?_⟩
        · intro b hb
          rcases List.mem_cons.mp hb with e | e
          · rw [e]; exact hr
          · exact i1 b e
        · simp only [normalizedAxes, List.map_cons, List.nodup_cons, List.mem_map]
          refine ⟨?_, i2⟩
          rintro ⟨b, hb, e⟩
          exact i3 b hb (by rw [e]; exact List.mem_cons_self _ _)
        · intro b hb
          rcases List.mem_cons.mp hb with e | e
          · rw [e]; exact hS
          · exact fun c => i3 b e (List.mem_cons_of_mem _ c)
    · rw [axesLoop_cons_outOfRange S n a rest hr] at h
      cases h

/-- The converse of `PrepareCompute_ok`: a passed sparse check, a completed axis
loop and a fill loop that consumes the input exactly make a successful return,
whatever the caller's `output_shape` held. -/
theorem PrepareCompute_of_loops (ctx : OpKernelContext)
    (input_shape output_shape out D : TensorShape)
    (hs : sparseCheck ctx.inputIsSparse ctx.axes = none)
    (hl : axesLoop ctx.axes (List.replicate (ctx.axes.length + input_shape.length) 0) = .ok D)
    (hf : fillLoop D input_shape = some (out, [])) :
    PrepareCompute ctx input_shape output_shape = .ok (Status.OK, out) := by
  simp only [PrepareCompute, hs, hl, hf]
  simp

/-- C13: for every dense input shape of rank r and every axis list of length k,
`PrepareCompute` succeeds if and only if every axis normalizes into [0, r+k) and
the normalized axes are pairwise distinct; otherwise it fails with the
out-of-range or the duplicate error (leaving `output_shape` unassigned), and
that error is the one of the first offending axis: if the axes before an axis are
in range and pairwise distinct, then an out-of-range axis yields the
out-of-range error and an in-range axis repeating one of them yields the
duplicate error. -/
theorem PrepareCompute_dense_outcome (ctx : OpKernelContext)
    (input_shape output_shape : TensorShape) (hdense : ctx.inputIsSparse = false) :
    ((∃ out, PrepareCompute ctx input_shape output_shape = .ok (Status.OK, out))
        ↔ ((∀ a ∈ ctx.axes,
              0 ≤ HandleNegativeAxis a ((input_shape.length + ctx.axes.length : Nat) : Int)
                ∧ HandleNegativeAxis a ((input_shape.length + ctx.axes.length : Nat) : Int)
                    < ((input_shape.length + ctx.axes.length : Nat) : Int))
            ∧ (normalizedAxes ctx.axes (input_shape.length + ctx.axes.length)).Nodup))
      ∧ (¬ ((∀ a ∈ ctx.axes,
              0 ≤ HandleNegativeAxis a ((input_shape.length + ctx.axes.length : Nat) : Int)
                ∧ HandleNegativeAxis a ((input_shape.length + ctx.axes.length : Nat) : Int)
                    < ((input_shape.length + ctx.axes.length : Nat) : Int))
            ∧ (normalizedAxes ctx.axes (input_shape.length + ctx.axes.length)).Nodup) →
          PrepareCompute ctx input_shape output_shape = .ok (outOfRangeAxis, output_shape)
            ∨ PrepareCompute ctx input_shape output_shape = .ok (duplicateAxis, output_shape))
      ∧ (∀ (pre : List Int) (a : Int) (rest : List Int), ctx.axes = pre ++ a :: rest →
          (∀ b ∈ pre,
            0 ≤ HandleNegativeAxis b ((input_shape.length + ctx.axes.length : Nat) : Int)
              ∧ HandleNegativeAxis b ((input_shape.length + ctx.axes.length : Nat) : Int)
                  < ((input_shape.length + ctx.axes.length : Nat) : Int)) →
          (normalizedAxes pre (input_shape.length + ctx.axes.length)).Nodup →
          (¬ (0 ≤ HandleNegativeAxis a ((input_shape.length + ctx.axes.length : Nat) : Int)
                ∧ HandleNegativeAxis a ((input_shape.length + ctx.axes.length : Nat) : Int)
                    < ((input_shape.length + ctx.axes.length : Nat) : Int)) →
              PrepareCompute ctx input_shape output_shape
                = .ok (outOfRangeAxis, output_shape))
            ∧ ((0 ≤ HandleNegativeAxis a ((input_shape.length + ctx.axes.length : Nat) : Int)
                ∧ HandleNegativeAxis a ((input_shape.length + ctx.axes.length : Nat) : Int)
                    < ((input_shape.length + ctx.axes.length : Nat) : Int)) →
              HandleNegativeAxis a ((input_shape.length + ctx.axes.length : Nat) : Int)
                ∈ normalizedAxes pre (input_shape.length + ctx.axes.length) →
              PrepareCompute ctx input_shape output_shape
                = .ok (duplicateAxis, output_shape))) := by
  have hs : sparseCheck ctx.inputIsSparse ctx.axes = none := by simp [sparseCheck, hdense]
  have e : ctx.axes.length + input_shape.length = input_shape.length + ctx.axes.length :=
    Nat.add_comm _ _
  have hvalid : ∀ D, axesLoop ctx.axes (marks [] 0 (input_shape.length + ctx.axes.length))
      = .ok D →
      (∀ a ∈ ctx.axes,
          0 ≤ HandleNegativeAxis a ((input_shape.length + ctx.axes.length : Nat) : Int)
            ∧ HandleNegativeAxis a ((input_shape.length + ctx.axes.length : Nat) : Int)
                < ((input_shape.length + ctx.axes.length : Nat) : Int))
        ∧ (normalizedAxes ctx.axes (input_shape.length + ctx.axes.length)).Nodup := by
    intro D hD
    obtain ⟨v1, v2, _⟩ := axesLoop_ok_valid _ _ _ _ hD
    exact ⟨v1, v2⟩
  refine ⟨⟨?_, ?_⟩, ?_, ?_⟩
  · rintro ⟨out, h⟩
    obtain ⟨_, D, hD, _⟩ := PrepareCompute_ok ctx input_shape output_shape out h
    rw [e, ← marks_nil _ 0] at hD
    exact hvalid D hD
  · rintro ⟨v1, v2⟩
    rw [← e] at v1 v2
    obtain ⟨out, h, _⟩ := PrepareCompute_valid_core ctx input_shape output_shape hs v1 v2
    exact ⟨out, h⟩
  · intro hnot
    cases hl : axesLoop ctx.axes (marks [] 0 (input_shape.length + ctx.axes.length)) with
    | ok D => exact absurd (hvalid D hl) hnot
    | error st =>
      have hp := PrepareCompute_axesLoop_error ctx input_shape output_shape st hs hl
      rcases axesLoop_error _ _ _ hl with e1 | e1
      · left; rw [hp, e1]
      · right; rw [hp, e1]
  · intro pre a rest hax hpre hnd
    constructor
    · intro ha
      apply PrepareCompute_axesLoop_error _ _ _ _ hs
      have := axesLoop_outOfRange (input_shape.length + ctx.axes.length) pre a rest [] hnd
        (fun b _ => by simp) ha
      rw [← hax] at this
      exact this
    · intro ha hm
      apply PrepareCompute_axesLoop_error _ _ _ _ hs
      have := axesLoop_duplicate (input_shape.length + ctx.axes.length) pre a rest [] hpre ha
        (Or.inl hm)
      rw [← hax] at this
      exact this

/-- C13, on the dense input shape [2,3]: axes [1,-1] are valid and succeed;
axes [0,9,0] fail with the error of the first offending axis, 9. -/
theorem PrepareCompute_dense_outcome_witness :
    (∃ out, PrepareCompute (shapeOnlyContext [1, -1] false) [2, 3] [] = .ok (Status.OK, out))
      ∧ PrepareCompute (shapeOnlyContext [0, 9, 0] false) [2, 3] [7]
          = .ok (outOfRangeAxis, [7]) :=
  ⟨((PrepareCompute_dense_outcome (shapeOnlyContext [1, -1] false) [2, 3] [] rfl).1).2
      ⟨by decide, by decide⟩,
    ((PrepareCompute_dense_outcome (shapeOnlyContext [0, 9, 0] false) [2, 3] [7] rfl).2.2
      [0] 9 [0] rfl (by decide) (by decide)).1 (by decide)⟩

/-- C14: whenever the axis loop of `PrepareCompute` completes without error for
an input of rank r, exactly r slots of `output_dims` are still 0, and the fill
loop then completes without reading past the end of the input dimensions and
leaves the iterator at their end, having consumed each of them once; so
`PrepareCompute` always returns a status: it never ends in a failed assertion
or an out-of-bounds read. -/
theorem fill_invariant (ctx : OpKernelContext) (input_shape output_shape : TensorShape) :
    (∀ D, axesLoop ctx.axes (List.replicate (ctx.axes.length + input_shape.length) 0) = .ok D →
        D.count 0 = input_shape.length
          ∧ ∃ out, fillLoop D input_shape = some (out, [])
              ∧ out.length = D.length
              ∧ removeAxes (normalizedAxes ctx.axes (ctx.axes.length + input_shape.length)) out
                  = input_shape)
      ∧ ∃ st out, PrepareCompute ctx input_shape output_shape = .ok (st, out) := by
  have key : ∀ D,
      axesLoop ctx.axes (List.replicate (ctx.axes.length + input_shape.length) 0) = .ok D →
      D.count 0 = input_shape.length
        ∧ ∃ out, fillLoop D input_shape = some (out, [])
            ∧ out.length = D.length
            ∧ removeAxes (normalizedAxes ctx.axes (ctx.axes.length + input_shape.length)) out
                = input_shape := by
    intro D hD
    have hD2 := hD
    rw [← marks_nil _ 0] at hD2
    obtain ⟨v1, v2, _⟩ := axesLoop_ok_valid _ _ _ _ hD2
    have hloop := axesLoop_valid (ctx.axes.length + input_shape.length) ctx.axes [] v1 v2
      (fun a _ => by simp)
    rw [hD2, List.append_nil] at hloop
    have hDm := Except.ok.inj hloop
    have hcount := unmarked_count (ctx.axes.length + input_shape.length)
      (normalizedAxes ctx.axes (ctx.axes.length + input_shape.length)) v2 (by
        intro s hs
        simp only [normalizedAxes, List.mem_map] at hs
        obtain ⟨a, ha, e⟩ := hs
        rw [← e]
        exact v1 a ha)
    have hlen : (normalizedAxes ctx.axes (ctx.axes.length + input_shape.length)).length
        = ctx.axes.length := by simp [normalizedAxes]
    have hu : unmarked (normalizedAxes ctx.axes (ctx.axes.length + input_shape.length)) 0
        (ctx.axes.length + input_shape.length) = input_shape.length := by omega
    obtain ⟨out, h1, h2, h3⟩ := fillLoop_marks
      (normalizedAxes ctx.axes (ctx.axes.length + input_shape.length))
      (ctx.axes.length + input_shape.length) 0 input_shape (by omega)
    rw [hu, List.drop_length] at h1
    rw [hu, List.take_length] at h3
    rw [hDm]
    refine ⟨by rw [marks_count_zero, hu], out, h1, by rw [h2, marks_length], h3⟩
  refine ⟨key, ?_⟩
  cases hs : sparseCheck ctx.inputIsSparse ctx.axes with
  | some st => exact ⟨st, output_shape, by simp only [PrepareCompute, hs]⟩
  | none =>
    cases hl : axesLoop ctx.axes (List.replicate (ctx.axes.length + input_shape.length) 0) with
    | error st => exact ⟨st, output_shape, by simp only [PrepareCompute, hs, hl]⟩
    | ok D =>
      obtain ⟨_, out, hf, _⟩ := key D hl
      exact ⟨Status.OK, out, PrepareCompute_of_loops ctx input_shape output_shape out D hs hl hf⟩

/-- C14, on the input shape [0,3] with axes [1,-1]: after the axis loop two
slots are unset and the fill loop ends exactly at the end of the input. -/
theorem fill_invariant_witness :
    ([0, 1, 0, 1] : List Int).count 0 = [0, 3].length
      ∧ ∃ out, fillLoop [0, 1, 0, 1] [0, 3] = some (out, [])
          ∧ out.length = ([0, 1, 0, 1] : List Int).length
          ∧ removeAxes (normalizedAxes [1, -1] (2 + 2)) out = [0, 3] :=
  (fill_invariant (shapeOnlyContext [1, -1] false) [0, 3] []).1 [0, 1, 0, 1] (by decide)

/-! ### The sentinel and the mask -/

/-- The flag that the sentinel scheme reads off a slot: set when non-zero. -/
theorem getD_map_ne_zero (D : List Int) (k : Nat) :
    (D.map (fun d => decide (d ≠ 0))).getD k false = decide (D.getD k 0 ≠ 0) := by
  induction D generalizing k with
  | nil => simp
  | cons d D ih =>
    cases k with
    | zero => simp
    | succ k => simpa using ih k

theorem set_map_ne_zero (D : List Int) (k : Nat) :
    (D.map (fun d => decide (d ≠ 0))).set k true
      = (D.set k 1).map (fun d => decide (d ≠ 0)) := by
  induction D generalizing k with
  | nil => simp
  | cons d D ih =>
    cases k with
    | zero => simp
    | succ k => simp [ih k]

/-- While the mask agrees with "non-zero", the two axis loops do the same. -/
theorem axesLoopMask_eq (axes D : List Int) :
    axesLoopMask axes D (D.map (fun d => decide (d ≠ 0)))
      = match axesLoop axes D with
        | .error st => .error st
        | .ok D2 => .ok (D2, D2.map (fun d => decide (d ≠ 0))) := by
  induction axes generalizing D with
  | nil => simp [axesLoopMask, axesLoop]
  | cons a rest ih =>
    simp only [axesLoopMask, axesLoop, getD_map_ne_zero, set_map_ne_zero, decide_eq_true_eq]
    split
    · rfl
    · split
      · rfl
      · exact ih _

/-- While the mask agrees with "non-zero", the two fill loops do the same. -/
theorem fillLoopMask_eq (D inp : List Int) :
    fillLoopMask D (D.map (fun d => decide (d ≠ 0))) inp = fillLoop D inp := by
  induction D generalizing inp with
  | nil => simp [fillLoopMask, fillLoop]
  | cons d D ih =>
    simp only [List.map_cons, fillLoopMask, fillLoop, List.headD_cons, List.tail_cons,
      decide_eq_true_eq, ih]
    by_cases hd : d = 0
    · rw [if_neg (not_not.mpr hd), if_pos hd]
    · rw [if_pos hd, if_neg hd]

/-- C15: the sentinel-based `PrepareCompute` and the variant that tracks set
slots with an explicit boolean mask return the same result on every input - the
same output shape, the same error, for every input shape, zero-sized dimensions
included, every axis list and either kind of input; in particular on the shape
[0,3] with axes [1,-1] both return [0,1,3,1], the zero-sized dimension copied to
its slot. -/
theorem PrepareComputeMask_eq_PrepareCompute (ctx : OpKernelContext)
    (input_shape output_shape : TensorShape) :
    PrepareComputeMask ctx input_shape output_shape
        = PrepareCompute ctx input_shape output_shape
      ∧ PrepareCompute (shapeOnlyContext [1, -1] false) [0, 3] []
        = .ok (Status.OK, [0, 1, 3, 1])
      ∧ PrepareComputeMask (shapeOnlyContext [1, -1] false) [0, 3] []
        = .ok (Status.OK, [0, 1, 3, 1]) := by
  refine ⟨?_, by decide, by decide⟩
  have hinit : List.replicate (ctx.axes.length + input_shape.length) false
      = (List.replicate (ctx.axes.length + input_shape.length) (0 : Int)).map
          (fun d => decide (d ≠ 0)) := by simp
  unfold PrepareComputeMask PrepareCompute
  simp only
  cases sparseCheck ctx.inputIsSparse ctx.axes with
  | some st => rfl
  | none =>
    simp only
    rw [hinit, axesLoopMask_eq]
    cases axesLoop ctx.axes (List.replicate (ctx.axes.length + input_shape.length) 0) with
    | error st => rfl
    | ok D =>
      simp only
      rw [fillLoopMask_eq]

/-! ### Element count -/

/-- The fill loop on a marked array keeps the product of the dimensions: what it
wrote times what it left unread is what it was given. -/
theorem fillLoop_marks_prod (S : List Int) (m i : Nat) (inp out fin : List Int)
    (h : fillLoop (marks S i m) inp = some (out, fin)) :
    out.prod * fin.prod = inp.prod := by
  induction m generalizing i inp out with
  | zero =>
    simp only [marks, fillLoop, Option.some.injEq, Prod.mk.injEq] at h
    obtain ⟨h1, h2⟩ := h
    subst h1 h2
    simp
  | succ m ih =>
    by_cases hi : (i : Int) ∈ S
    · simp only [marks, hi, if_true, fillLoop, one_ne_zero, if_false] at h
      cases hf : fillLoop (marks S (i + 1) m) inp with
      | none => simp [hf] at h
      | some r =>
        obtain ⟨o, f⟩ := r
        simp only [hf, Option.some.injEq, Prod.mk.injEq] at h
        obtain ⟨h1, h2⟩ := h
        subst h1 h2
        have := ih _ _ _ hf
        simpa using this
    · simp only [marks, hi, if_false, fillLoop, if_true] at h
      cases inp with
      | nil => simp at h
      | cons d inp =>
        simp only at h
        cases hf : fillLoop (marks S (i + 1) m) inp with
        | none => simp [hf] at h
        | some r =>
          obtain ⟨o, f⟩ := r
          simp only [hf, Option.some.injEq, Prod.mk.injEq] at h
          obtain ⟨h1, h2⟩ := h
          subst h1 h2
          have := ih _ _ _ hf
          simp only [List.prod_cons]
          rw [mul_assoc, this]

/-- A successful return has run the fill loop on the array marked at the
normalized axes, which are in range and pairwise distinct. -/
theorem PrepareCompute_ok_marks (ctx : OpKernelContext)
    (input_shape output_shape out : TensorShape)
    (h : PrepareCompute ctx input_shape output_shape = .ok (Status.OK, out)) :
    sparseCheck ctx.inputIsSparse ctx.axes = none
      ∧ (∀ a ∈ ctx.axes,
          0 ≤ HandleNegativeAxis a ((ctx.axes.length + input_shape.length : Nat) : Int)
            ∧ HandleNegativeAxis a ((ctx.axes.length + input_shape.length : Nat) : Int)
                < ((ctx.axes.length + input_shape.length : Nat) : Int))
      ∧ (normalizedAxes ctx.axes (ctx.axes.length + input_shape.length)).Nodup
      ∧ fillLoop (marks (normalizedAxes ctx.axes (ctx.axes.length + input_shape.length)) 0
          (ctx.axes.length + input_shape.length)) input_shape = some (out, []) := by
  obtain ⟨hs, D, hD, hf⟩ := PrepareCompute_ok ctx input_shape output_shape out h
  rw [← marks_nil _ 0] at hD
  obtain ⟨v1, v2, _⟩ := axesLoop_ok_valid _ _ _ _ hD
  have hloop := axesLoop_valid (ctx.axes.length + input_shape.length) ctx.axes [] v1 v2
    (fun a _ => by simp)
  rw [hD, List.append_nil] at hloop
  rw [Except.ok.inj hloop] at hf
  exact ⟨hs, v1, v2, hf⟩

/-- C17: whenever `PrepareCompute` succeeds, the product of the output
dimensions equals the product of the input dimensions; so, when the input tensor
of `Unsqueeze::Compute` holds as many elements as its shape announces,
`PrepareCompute` succeeds on it and the context hands out storage of the size of
the computed shape, `Compute` succeeds, the output tensor has that shape and
holds the input elements, and they are exactly as many as the storage has room
for; and every successful `Compute` leaves such an output tensor. -/
theorem PrepareCompute_preserves_element_count (ctx : OpKernelContext) :
    (∀ (input_shape output_shape out : TensorShape),
        PrepareCompute ctx input_shape output_shape = .ok (Status.OK, out) →
          out.prod = input_shape.prod)
      ∧ (∀ (input_tensor : Tensor) (out : TensorShape) (buf : List Int),
          ctx.input0 = some input_tensor →
          (input_tensor.data.length : Int) = input_tensor.shape.prod →
          PrepareCompute ctx input_tensor.shape [] = .ok (Status.OK, out) →
          ctx.outputStorage out = some buf →
          (buf.length : Int) = out.prod →
            Unsqueeze.Compute ctx
                = .ok (Status.OK, { ctx with output0 := some ⟨out, input_tensor.data⟩ })
              ∧ input_tensor.data.length = buf.length
              ∧ (input_tensor.data.length : Int) = out.prod)
      ∧ (∀ (input_tensor : Tensor) (ctx2 : OpKernelContext),
          ctx.input0 = some input_tensor →
          (input_tensor.data.length : Int) = input_tensor.shape.prod →
          Unsqueeze.Compute ctx = .ok (Status.OK, ctx2) →
            ∃ output_tensor, ctx2.output0 = some output_tensor
              ∧ output_tensor.data = input_tensor.data
              ∧ (output_tensor.data.length : Int) = output_tensor.shape.prod) := by
  have hprod : ∀ (input_shape output_shape out : TensorShape),
      PrepareCompute ctx input_shape output_shape = .ok (Status.OK, out) →
        out.prod = input_shape.prod := by
    intro input_shape output_shape out h
    obtain ⟨_, _, _, hf⟩ := PrepareCompute_ok_marks ctx input_shape output_shape out h
    have := fillLoop_marks_prod _ _ _ _ _ _ hf
    simpa using this
  refine ⟨hprod, ?_, ?_⟩
  · intro input_tensor out buf hin hwf hp hb hsize
    have hcount : (input_tensor.data.length : Int) = out.prod := by
      rw [hwf, hprod _ _ _ hp]
    refine ⟨?_, ?_, hcount⟩
    · simp only [Unsqueeze.Compute, hin, hp, OpKernelContext.Output, hb, CopyCpuTensor]
      simp
    · have : (input_tensor.data.length : Int) = (buf.length : Int) := by
        rw [hcount, hsize]
      exact_mod_cast this
  · intro input_tensor ctx2 hin hwf hc
    simp only [Unsqueeze.Compute, hin] at hc
    cases hp : PrepareCompute ctx input_tensor.shape [] with
    | error f => simp [hp] at hc
    | ok r =>
      obtain ⟨st, out⟩ := r
      simp only [hp] at hc
      by_cases hst : st = Status.OK
      · subst hst
        simp only [ne_eq, not_true_eq_false, if_false, OpKernelContext.Output] at hc
        cases hb : ctx.outputStorage out with
        | none => simp [hb, ORT_RETURN_IF_status] at hc
        | some buf =>
          simp only [hb, Except.ok.injEq, Prod.mk.injEq, true_and] at hc
          subst hc
          refine ⟨⟨out, input_tensor.data⟩, rfl, rfl, ?_⟩
          simp only
          rw [hwf, hprod _ _ _ hp]
      · simp only [ne_eq, hst, not_false_eq_true, if_true, Except.ok.injEq, Prod.mk.injEq] at hc
        exact hc.1.elim

/-- C17, on a dense input tensor of shape [2,3] with six elements and axes
[0,-1], the context handing out zero-filled storage of the size of the shape it
is asked for: the products agree, and `Compute` succeeds with the six input
elements in an output tensor of shape [1,2,3,1] whose storage has six slots. -/
theorem PrepareCompute_preserves_element_count_witness :
    ([1, 2, 3, 1] : TensorShape).prod = ([2, 3] : TensorShape).prod
      ∧ Unsqueeze.Compute (denseContext [0, -1] ⟨[2, 3], [1, 2, 3, 4, 5, 6]⟩
            (fun s => some (List.replicate s.prod.toNat 0)))
          = .ok (Status.OK,
              { denseContext [0, -1] ⟨[2, 3], [1, 2, 3, 4, 5, 6]⟩
                  (fun s => some (List.replicate s.prod.toNat 0)) with
                output0 := some ⟨[1, 2, 3, 1], [1, 2, 3, 4, 5, 6]⟩ })
      ∧ ([1, 2, 3, 4, 5, 6] : List Int).length = (List.replicate 6 (0 : Int)).length
      ∧ ((([1, 2, 3, 4, 5, 6] : List Int).length : Nat) : Int)
          = ([1, 2, 3, 1] : TensorShape).prod :=
  ⟨(PrepareCompute_preserves_element_count
        (denseContext [0, -1] ⟨[2, 3], [1, 2, 3, 4, 5, 6]⟩
          (fun s => some (List.replicate s.prod.toNat 0)))).1
      [2, 3] [] [1, 2, 3, 1] (by decide),
    (PrepareCompute_preserves_element_count
        (denseContext [0, -1] ⟨[2, 3], [1, 2, 3, 4, 5, 6]⟩
          (fun s => some (List.replicate s.prod.toNat 0)))).2.1
      ⟨[2, 3], [1, 2, 3, 4, 5, 6]⟩ [1, 2, 3, 1] (List.replicate 6 0)
      rfl (by decide) (by decide) (by decide) (by decide)⟩

/-! ### Order of the axes -/

/-- The converse of `PrepareCompute_ok_marks`. -/
theorem PrepareCompute_of_marks (ctx : OpKernelContext)
    (input_shape output_shape out : TensorShape)
    (hs : sparseCheck ctx.inputIsSparse ctx.axes = none)
    (v1 : ∀ a ∈ ctx.axes,
      0 ≤ HandleNegativeAxis a ((ctx.axes.length + input_shape.length : Nat) : Int)
        ∧ HandleNegativeAxis a ((ctx.axes.length + input_shape.length : Nat) : Int)
            < ((ctx.axes.length + input_shape.length : Nat) : Int))
    (v2 : (normalizedAxes ctx.axes (ctx.axes.length + input_shape.length)).Nodup)
    (hf : fillLoop (marks (normalizedAxes ctx.axes (ctx.axes.length + input_shape.length)) 0
        (ctx.axes.length + input_shape.length)) input_shape = some (out, [])) :
    PrepareCompute ctx input_shape output_shape = .ok (Status.OK, out) := by
  have hloop := axesLoop_valid (ctx.axes.length + input_shape.length) ctx.axes [] v1 v2
    (fun a _ => by simp)
  rw [List.append_nil, marks_nil] at hloop
  exact PrepareCompute_of_loops ctx input_shape output_shape out _ hs hloop hf

/-- The sparse check gives the same verdict on a permuted axis list. -/
theorem sparseCheck_perm (b : Bool) (axes axes2 : List Int) (hp : axes.Perm axes2) :
    sparseCheck b axes2 = sparseCheck b axes := by
  match axes, hp with
  | [], hp => rw [← hp.nil_eq]
  | [a], hp =>
    have : axes2 = [a] := List.perm_singleton.mp hp.symm
    rw [this]
  | a :: c :: l, hp =>
    have hl := hp.length_eq
    simp only [List.length_cons] at hl
    cases b with
    | false => simp [sparseCheck]
    | true =>
      have h2 : ¬ (axes2.length ≤ 1) := by omega
      simp [sparseCheck, h2]

/-- C16: when `PrepareCompute` succeeds on an axis list, it succeeds on every
permutation of that list and returns the same output shape. -/
theorem PrepareCompute_perm (ctx : OpKernelContext) (axes2 : List Int)
    (input_shape output_shape out : TensorShape)
    (h : PrepareCompute ctx input_shape output_shape = .ok (Status.OK, out))
    (hp : ctx.axes.Perm axes2) :
    PrepareCompute { ctx with axes := axes2 } input_shape output_shape
      = .ok (Status.OK, out) := by
  obtain ⟨hs, v1, v2, hf⟩ := PrepareCompute_ok_marks ctx input_shape output_shape out h
  have hl : axes2.length = ctx.axes.length := hp.length_eq.symm
  have hn : (normalizedAxes ctx.axes (ctx.axes.length + input_shape.length)).Perm
      (normalizedAxes axes2 (ctx.axes.length + input_shape.length)) := hp.map _
  apply PrepareCompute_of_marks
  · show sparseCheck ctx.inputIsSparse axes2 = none
    rw [sparseCheck_perm _ _ _ hp, hs]
  · show ∀ a ∈ axes2, _
    rw [hl]
    intro a ha
    exact v1 a (hp.mem_iff.mpr ha)
  · show (normalizedAxes axes2 (axes2.length + input_shape.length)).Nodup
    rw [hl]
    exact hn.nodup_iff.mp v2
  · show fillLoop (marks (normalizedAxes axes2 (axes2.length + input_shape.length)) 0
      (axes2.length + input_shape.length)) input_shape = some (out, [])
    rw [hl, ← hf]
    congr 1
    apply marks_congr
    intro x _ _
    exact hn.symm.mem_iff

/-- C16, on the input shape [2,3]: axes [0,3] and [3,0] both give [1,2,3,1]. -/
theorem PrepareCompute_perm_witness :
    PrepareCompute { shapeOnlyContext [0, 3] false with axes := [3, 0] } [2, 3] []
      = .ok (Status.OK, [1, 2, 3, 1]) :=
  PrepareCompute_perm (shapeOnlyContext [0, 3] false) [3, 0] [2, 3] [] [1, 2, 3, 1]
    (by decide) (List.Perm.swap 3 0 [])

/-! ### One axis at a time -/

theorem normalizedAxes_nonneg (l : List Int) (n : Nat) (h : ∀ a ∈ l, 0 ≤ a) :
    normalizedAxes l n = l := by
  induction l with
  | nil => rfl
  | cons a l ih =>
    have ha := h a (List.mem_cons_self _ _)
    have hl := ih (fun b hb => h b (List.mem_cons_of_mem _ hb))
    simp only [normalizedAxes, List.map_cons] at hl ⊢
    rw [hl]
    simp only [HandleNegativeAxis]
    rw [if_neg (by omega)]

/-- With every slot unset, the fill loop copies the input dimensions. -/
theorem fillLoop_all_unset (inp : List Int) : fillLoop (List.replicate inp.length 0) inp
    = some (inp, []) := by
  induction inp with
  | nil => rfl
  | cons d inp ih => simp [List.replicate_succ, fillLoop, ih]

theorem fillLoop_cons_set (x : Int) (hx : x ≠ 0) (D inp o f : List Int)
    (h : fillLoop D inp = some (o, f)) : fillLoop (x :: D) inp = some (x :: o, f) := by
  simp only [fillLoop, hx, if_false, h]

theorem fillLoop_cons_unset (D : List Int) (d : Int) (inp o f : List Int)
    (h : fillLoop D inp = some (o, f)) : fillLoop (0 :: D) (d :: inp) = some (d :: o, f) := by
  simp only [fillLoop, if_true, h]

/-- Marking one more position `a`, beyond all those of `S`, inserts a 1 at that
position of what the fill loop produces and shifts the later slots by one. -/
theorem fillLoop_marks_insert (S : List Int) (a : Nat) (hS : ∀ b ∈ S, b < (a : Int)) :
    ∀ (j m i : Nat) (inp out fin : List Int), a = i + j → j ≤ m →
      fillLoop (marks S i m) inp = some (out, fin) →
      fillLoop (marks ((a : Int) :: S) i (m + 1)) inp
        = some (out.take j ++ 1 :: out.drop j, fin) := by
  intro j
  induction j with
  | zero =>
    intro m i inp out fin ha _ h
    have hai : a = i := by omega
    subst hai
    have hz1 : marks S a m = List.replicate m 0 := by
      rw [← marks_nil m a]
      apply marks_congr
      intro x hx _
      constructor
      · intro hm
        have := hS _ hm
        omega
      · intro hm
        simp at hm
    have hz2 : marks ((a : Int) :: S) (a + 1) m = List.replicate m 0 := by
      rw [← marks_nil m (a + 1)]
      apply marks_congr
      intro x hx _
      constructor
      · intro hm
        rcases List.mem_cons.mp hm with e | e
        · have : x = a := by exact_mod_cast e
          omega
        · have := hS _ e
          omega
      · intro hm
        simp at hm
    rw [hz1] at h
    simp only [marks, List.mem_cons, true_or, if_true, hz2, fillLoop, one_ne_zero, if_false, h,
      List.take_zero, List.drop_zero, List.nil_append]
  | succ j ih =>
    intro m i inp out fin ha hjm h
    obtain ⟨m2, rfl⟩ : ∃ m2, m = m2 + 1 := ⟨m - 1, by omega⟩
    have hne : (i : Int) ≠ (a : Int) := by
      intro c
      have : i = a := by exact_mod_cast c
      omega
    by_cases hi : (i : Int) ∈ S
    · simp only [marks, hi, if_true, fillLoop, one_ne_zero, if_false] at h
      cases hf : fillLoop (marks S (i + 1) m2) inp with
      | none => simp [hf] at h
      | some r =>
        obtain ⟨o, f⟩ := r
        simp only [hf, Option.some.injEq, Prod.mk.injEq] at h
        obtain ⟨h1, h2⟩ := h
        subst h1 h2
        have hrec := ih m2 (i + 1) inp o f (by omega) (by omega) hf
        have hhead : (i : Int) ∈ (a : Int) :: S := List.mem_cons_of_mem _ hi
        rw [marks, if_pos hhead]
        exact fillLoop_cons_set 1 one_ne_zero _ _ _ _ hrec
    · simp only [marks, hi, if_false, fillLoop, if_true] at h
      cases inp with
      | nil => simp at h
      | cons d inp =>
        simp only at h
        cases hf : fillLoop (marks S (i + 1) m2) inp with
        | none => simp [hf] at h
        | some r =>
          obtain ⟨o, f⟩ := r
          simp only [hf, Option.some.injEq, Prod.mk.injEq] at h
          obtain ⟨h1, h2⟩ := h
          subst h1 h2
          have hrec := ih m2 (i + 1) inp o f (by omega) (by omega) hf
          have hhead : ¬ (i : Int) ∈ (a : Int) :: S := by
            intro c
            rcases List.mem_cons.mp c with e | e
            · exact hne e
            · exact hi e
          rw [marks, if_neg hhead]
          exact fillLoop_cons_unset _ d _ _ _ hrec

/-- A single in-range axis `a` on a shape inserts a 1 at position `a`. -/
theorem PrepareCompute_single (ctx : OpKernelContext) (shape output_shape : TensorShape)
    (a : Nat) (ha : a ≤ shape.length)
    (hs : sparseCheck ctx.inputIsSparse [(a : Int)] = none) :
    PrepareCompute { ctx with axes := [(a : Int)] } shape output_shape
      = .ok (Status.OK, shape.take a ++ 1 :: shape.drop a) := by
  have hn : normalizedAxes [(a : Int)] (1 + shape.length) = [(a : Int)] :=
    normalizedAxes_nonneg _ _ (fun b hb => by
      rw [List.mem_singleton.mp hb]; omega)
  apply PrepareCompute_of_marks
  · exact hs
  · intro b hb
    have hb2 : b = (a : Int) := List.mem_singleton.mp hb
    subst hb2
    show 0 ≤ HandleNegativeAxis (a : Int) ((1 + shape.length : Nat) : Int)
      ∧ HandleNegativeAxis (a : Int) ((1 + shape.length : Nat) : Int)
          < ((1 + shape.length : Nat) : Int)
    simp only [HandleNegativeAxis]
    rw [if_neg (by omega)]
    omega
  · show (normalizedAxes [(a : Int)] (1 + shape.length)).Nodup
    rw [hn]
    exact List.nodup_singleton _
  · show fillLoop (marks (normalizedAxes [(a : Int)] (1 + shape.length)) 0
      (1 + shape.length)) shape = _
    rw [hn, Nat.add_comm 1 shape.length]
    apply fillLoop_marks_insert [] a (fun b hb => by simp at hb) a shape.length 0 shape shape []
      (by omega) ha
    rw [marks_nil]
    exact fillLoop_all_unset shape

theorem insertSequentially_append (ctx : OpKernelContext) (l1 l2 : List Int)
    (shape : TensorShape) :
    insertSequentially ctx (l1 ++ l2) shape
      = (insertSequentially ctx l1 shape).bind (insertSequentially ctx l2) := by
  induction l1 generalizing shape with
  | nil => rfl
  | cons a l1 ih =>
    simp only [List.cons_append, insertSequentially]
    split
    · exact ih _
    · rfl

/-- On a strictly increasing list of in-range positions, the fill loop on the
array marked at those positions and the one-axis-at-a-time insertion produce the
same shape. -/
theorem insertSequentially_sorted (ctx : OpKernelContext) (shape : TensorShape)
    (sorted : List Int) (hp : sorted.Pairwise (· < ·))
    (hr : ∀ a ∈ sorted, 0 ≤ a ∧ a < ((sorted.length + shape.length : Nat) : Int))
    (hs : ∀ a ∈ sorted, sparseCheck ctx.inputIsSparse [a] = none) :
    ∃ out, fillLoop (marks sorted 0 (sorted.length + shape.length)) shape = some (out, [])
      ∧ insertSequentially ctx sorted shape = some out := by
  induction sorted using List.reverseRecOn with
  | nil =>
    refine ⟨shape, ?_, rfl⟩
    rw [marks_nil, List.length_nil, Nat.zero_add]
    exact fillLoop_all_unset shape
  | append_singleton init a ih =>
    obtain ⟨hp1, _, hp3⟩ := List.pairwise_append.mp hp
    have ha := hr a (by simp)
    obtain ⟨k, hk⟩ := Int.eq_ofNat_of_zero_le ha.1
    subst hk
    have hlt : ∀ b ∈ init, b < (k : Int) := fun b hb => hp3 b hb _ (List.mem_singleton_self _)
    have hlen : (init ++ [(k : Int)]).length + shape.length
        = init.length + shape.length + 1 := by
      simp only [List.length_append, List.length_singleton]; omega
    rw [hlen] at ha
    have hk : k ≤ init.length + shape.length := by omega
    obtain ⟨out1, hf1, hseq1⟩ := ih hp1
      (fun b hb => ⟨(hr b (by simp [hb])).1, by have := hlt b hb; omega⟩)
      (fun b hb => hs b (by simp [hb]))
    have hout1 : out1.length = init.length + shape.length := by
      rw [(fillLoop_ok _ _ _ _ hf1).1, marks_length]
    refine ⟨out1.take k ++ 1 :: out1.drop k, ?_, ?_⟩
    · rw [hlen]
      have := fillLoop_marks_insert init k hlt k (init.length + shape.length) 0 shape out1 []
        (by omega) hk hf1
      rw [← this]
      congr 1
      apply marks_congr
      intro x _ _
      simp only [List.mem_append, List.mem_singleton, List.mem_cons]
      tauto
    · rw [insertSequentially_append, hseq1]
      simp only [Option.some_bind, insertSequentially]
      rw [PrepareCompute_single ctx out1 [] k (by omega) (hs _ (by simp))]

/-- What the sparse check accepts on a sparse input. -/
theorem sparseCheck_none_cases (axes : List Int) (h : sparseCheck true axes = none) :
    axes = [] ∨ axes = [0] ∨ axes = [1] := by
  match axes with
  | [] => exact Or.inl rfl
  | [a] =>
    by_cases h0 : a = 0
    · exact Or.inr (Or.inl (by rw [h0]))
    · by_cases h1 : a = 1
      · exact Or.inr (Or.inr (by rw [h1]))
      · simp [sparseCheck, h0, h1] at h
  | _ :: _ :: _ => simp [sparseCheck] at h

/-- C18: when `PrepareCompute` succeeds on an axis list, and a1 < a2 < ... < ak
are its normalized axes in increasing order, then `PrepareCompute` on the list
[a1,...,ak] returns the same output shape, every call of the sequence
`PrepareCompute` with [a1], then [a2], ..., then [ak], each applied to the
previous result, succeeds, and the sequence ends with that same output shape. -/
theorem PrepareCompute_eq_insertSequentially (ctx : OpKernelContext)
    (input_shape output_shape out : TensorShape) (sorted : List Int)
    (h : PrepareCompute ctx input_shape output_shape = .ok (Status.OK, out))
    (hsorted : sorted.Pairwise (· < ·))
    (hperm : sorted.Perm (normalizedAxes ctx.axes (input_shape.length + ctx.axes.length))) :
    PrepareCompute { ctx with axes := sorted } input_shape output_shape
        = .ok (Status.OK, out)
      ∧ insertSequentially ctx sorted input_shape = some out := by
  obtain ⟨hs, v1, v2, hf⟩ := PrepareCompute_ok_marks ctx input_shape output_shape out h
  rw [Nat.add_comm input_shape.length ctx.axes.length] at hperm
  have hslen : sorted.length = ctx.axes.length := by
    rw [hperm.length_eq]; simp [normalizedAxes]
  have hmem : ∀ a ∈ sorted,
      0 ≤ a ∧ a < ((ctx.axes.length + input_shape.length : Nat) : Int) := by
    intro a ha
    have := hperm.mem_iff.mp ha
    simp only [normalizedAxes, List.mem_map] at this
    obtain ⟨b, hb, e⟩ := this
    rw [← e]
    exact v1 b hb
  have hnn : normalizedAxes sorted (ctx.axes.length + input_shape.length) = sorted :=
    normalizedAxes_nonneg _ _ (fun a ha => (hmem a ha).1)
  have hsame : ctx.inputIsSparse = true → sorted = ctx.axes := by
    intro hb
    rw [hb] at hs
    rcases sparseCheck_none_cases _ hs with e | e | e
    · rw [e] at hperm ⊢
      exact List.perm_nil.mp hperm
    · rw [e] at hperm ⊢
      exact List.perm_singleton.mp hperm
    · rw [e] at hperm ⊢
      exact List.perm_singleton.mp hperm
  have hsc : sparseCheck ctx.inputIsSparse sorted = none := by
    cases hb : ctx.inputIsSparse with
    | false => simp [sparseCheck]
    | true => rw [hsame hb, ← hb, hs]
  have hsc1 : ∀ a ∈ sorted, sparseCheck ctx.inputIsSparse [a] = none := by
    cases hb : ctx.inputIsSparse with
    | false => intro a _; simp [sparseCheck]
    | true =>
      intro a ha
      rw [hb] at hsc
      rcases sparseCheck_none_cases _ hsc with e | e | e
      · rw [e] at ha; simp at ha
      · rw [e] at ha; rw [List.mem_singleton.mp ha]; rfl
      · rw [e] at ha; rw [List.mem_singleton.mp ha]; rfl
  have hmarks : marks sorted 0 (ctx.axes.length + input_shape.length)
      = marks (normalizedAxes ctx.axes (ctx.axes.length + input_shape.length)) 0
          (ctx.axes.length + input_shape.length) := by
    apply marks_congr
    intro x _ _
    exact hperm.mem_iff
  obtain ⟨out2, hf2, hseq⟩ := insertSequentially_sorted ctx input_shape sorted hsorted
    (by rw [hslen]; exact hmem) hsc1
  rw [hslen, hmarks, hf] at hf2
  have hout : out2 = out := by
    have := Option.some.inj hf2
    exact (Prod.mk.inj this).1.symm
  rw [hout] at hseq
  refine ⟨?_, hseq⟩
  apply PrepareCompute_of_marks
  · exact hsc
  · show ∀ a ∈ sorted, _
    rw [hslen]
    intro a ha
    have e : HandleNegativeAxis a ((ctx.axes.length + input_shape.length : Nat) : Int) = a := by
      simp only [HandleNegativeAxis]
      rw [if_neg (by have := (hmem a ha).1; omega)]
    rw [e]
    exact hmem a ha
  · show (normalizedAxes sorted (sorted.length + input_shape.length)).Nodup
    rw [hslen, hnn]
    exact hperm.nodup_iff.mpr v2
  · show fillLoop (marks (normalizedAxes sorted (sorted.length + input_shape.length)) 0
      (sorted.length + input_shape.length)) input_shape = some (out, [])
    rw [hslen, hnn, hmarks, hf]

/-- C18, on the input shape [2,3] with axes [-1,0]: the normalized axes in
increasing order are [0,3]; the single call on [0,3] and the two calls with [0]
and then [3] all give [1,2,3,1]. -/
theorem PrepareCompute_eq_insertSequentially_witness :
    PrepareCompute { shapeOnlyContext [-1, 0] false with axes := [0, 3] } [2, 3] []
        = .ok (Status.OK, [1, 2, 3, 1])
      ∧ insertSequentially (shapeOnlyContext [-1, 0] false) [0, 3] [2, 3]
        = some [1, 2, 3, 1] :=
  PrepareCompute_eq_insertSequentially (shapeOnlyContext [-1, 0] false) [2, 3] [] [1, 2, 3, 1]
    [0, 3] (by decide) (by decide) (List.Perm.swap 3 0 [])

end onnxruntime
